import Mathlib

/-
Verification development for the SQL query plan visualizer's core pipeline
(src/src/utils/parser.ts): recursive plan-tree parsing, normalized graph
construction, critical-path marking, tidy tree layout, and input validation.

The TypeScript source is shallowly embedded:
  * JavaScript numbers are modelled by `JSNum` (a rational or NaN); the
    JSON-borne row estimates are natural numbers.
  * The global monotonic id counter (`nodeIdCounter`) is threaded through the
    parse functions explicitly.  `generateId` produces the string
    "node-<n>" for successive n; since the prefix is a fixed literal the id
    is modelled by its numeric part.
  * `rawData` on a plan node is an opaque snapshot the core never reads;
    it is omitted from the embedding.
  * Recursions that the source runs on the (acyclic by construction) node
    graph — cumulative cost, critical-path descent, subtree widths, node
    positioning — are given explicit fuel; the fuel chosen at each call site
    exceeds the maximal possible recursion depth on parser outputs, which is
    proved where a claim needs it.
-/

namespace PlanViz

/- Batteries marks the rational arithmetic operations irreducible, which
blocks `decide`-style evaluation of concrete parses; restore the default
reducibility for this development. -/
attribute [local semireducible] Rat.mul Rat.add Rat.sub Rat.inv

/-! ### JavaScript number semantics -/

/-- A JavaScript number as the parser uses it: either NaN (from `parseFloat`
on a non-numeric string) or a finite value, modelled by a rational. -/
inductive JSNum where
  | nan : JSNum
  | num : ℚ → JSNum
deriving DecidableEq, Repr

/-- JS `+` on numbers: NaN propagates. -/
def jsAdd : JSNum → JSNum → JSNum
  | .num a, .num b => .num (a + b)
  | _, _ => .nan

/-- JS `Math.max`: NaN if any argument is NaN, else the maximum. -/
def jsMax : JSNum → JSNum → JSNum
  | .num a, .num b => .num (max a b)
  | _, _ => .nan

/-- JS `x || 0` for a number `x`: NaN and 0 are falsy, so both give 0;
the result is always finite. -/
def jsOrZero : JSNum → ℚ
  | .nan => 0
  | .num q => q

/-- JS `a || b` on optional strings: `undefined` and `""` are falsy. -/
def jsOrStr : Option String → Option String → Option String
  | some s, b => if s = "" then b else some s
  | none, b => b

/-- JS `a || b || 0` on optional numeric row counts: `undefined` and 0 are
falsy. -/
def jsOrRows : Option ℕ → Option ℕ → ℕ
  | some n, b => if n = 0 then (match b with | some m => m | none => 0) else n
  | none, b => match b with | some m => m | none => 0

/-- Decimal digits of a character list prefix. -/
def digitsVal (ds : List Char) : ℕ :=
  ds.foldl (fun a ch => 10 * a + (ch.toNat - 48)) 0

/-- Whitespace skipped by `parseFloat`. -/
def isWS (ch : Char) : Bool :=
  ch = ' ' ∨ ch = '\t' ∨ ch = '\n' ∨ ch = '\r'

/-- JS `parseFloat`: skip leading whitespace, read an optional sign, then the
longest prefix of the form `digits [. digits] [e/E [sign] digits]`; if no
digit is read the result is NaN.  (The `Infinity` literal never occurs in
the decimal cost strings of EXPLAIN output and is not modelled.) -/
def jsParseFloat (s : String) : JSNum :=
  let cs := s.toList.dropWhile isWS
  let sign : ℚ := match cs with | '-' :: _ => -1 | _ => 1
  let cs := match cs with
    | '-' :: rest => rest
    | '+' :: rest => rest
    | _ => cs
  let ip := cs.takeWhile Char.isDigit
  let cs := cs.dropWhile Char.isDigit
  let fp := match cs with
    | '.' :: rest => rest.takeWhile Char.isDigit
    | _ => []
  let cs2 := match cs with
    | '.' :: rest => rest.dropWhile Char.isDigit
    | _ => cs
  if ip = [] ∧ fp = [] then .nan
  else
    -- the significand ip.fp as a rational: ip + fp / 10 ^ |fp|
    let mant : ℚ := mkRat (digitsVal ip * 10 ^ fp.length + digitsVal fp) (10 ^ fp.length)
    let expPart : ℤ := match cs2 with
      | ch :: rest =>
        if ch = 'e' ∨ ch = 'E' then
          match rest with
          | '-' :: r2 => -(digitsVal (r2.takeWhile Char.isDigit) : ℤ)
          | '+' :: r2 => (digitsVal (r2.takeWhile Char.isDigit) : ℤ)
          | _ => (digitsVal (rest.takeWhile Char.isDigit) : ℤ)
        else 0
      | [] => 0
    -- scaling by 10 ^ expPart (1 / 10 ^ e for a negative exponent)
    let scaled : ℚ := match expPart with
      | .ofNat n => mant * (10 : ℚ) ^ n
      | .negSucc n => mant * mkRat 1 (10 ^ (n + 1))
    .num (sign * scaled)

/-! ### Input data model (src/src/types.ts)

Only the fields the parser reads are modelled; fields it never touches
(`select_id`, `possible_keys`, `key_length`, `ref`, `filtered`,
`used_columns`, `insert`, `dependent`, `cacheable`, `table_name` and
`access_type` on a union result) are omitted.  The single-field wrapper
records `NestedLoopItem` stays; `MaterializedFromSubquery`,
`SubqueryInfo` and `QuerySpecification` are represented by the
`query_block` each wraps, the only field the parser reads of them. -/

/-- MySQL access method classifier; an open string in the embedding. -/
abbrev AccessType := String

/-- Optional cost record (`CostInfo`); all fields are decimal strings. -/
structure CostInfo where
  query_cost : Option String := none
  read_cost : Option String := none
  eval_cost : Option String := none
  prefix_cost : Option String := none
  data_read_per_join : Option String := none
  sort_cost : Option String := none
deriving DecidableEq, Repr

mutual
/-- A table access record (`TableInfo`). -/
inductive TableInfo where
  | mk
    (table_name : String)
    (access_type : AccessType)
    (key : Option String)
    (used_key_parts : Option (List String))
    (attached_condition : Option String)
    (cost_info : Option CostInfo)
    (rows_examined_per_scan : Option ℕ)
    (rows_produced_per_join : Option ℕ)
    (using_index : Option Bool)
    (using_temporary : Option Bool)
    (using_filesort : Option Bool)
    (using_index_condition : Option String)
    (message : Option String)
    (materialized_from_subquery : Option QueryBlock) : TableInfo

/-- One entry of a `nested_loop` list. -/
inductive NestedLoopItem where
  | mk (table : TableInfo) : NestedLoopItem

/-- An ORDER BY stage (`OrderingOperation`); its `duplicates_removal` and
`buffer_result` fields are never read by the parser and are omitted. -/
inductive OrderingOperation where
  | mk
    (using_filesort : Bool)
    (using_temporary_table : Option Bool)
    (cost_info : Option CostInfo)
    (table : Option TableInfo)
    (nested_loop : Option (List NestedLoopItem))
    (grouping_operation : Option GroupingOperation) : OrderingOperation

/-- A GROUP BY stage (`GroupingOperation`). -/
inductive GroupingOperation where
  | mk
    (using_filesort : Option Bool)
    (using_temporary_table : Option Bool)
    (cost_info : Option CostInfo)
    (table : Option TableInfo)
    (nested_loop : Option (List NestedLoopItem))
    (buffer_result : Option BufferResult) : GroupingOperation

/-- A DISTINCT stage (`DuplicatesRemoval`). -/
inductive DuplicatesRemoval where
  | mk
    (using_filesort : Option Bool)
    (using_temporary_table : Option Bool)
    (cost_info : Option CostInfo)
    (table : Option TableInfo)
    (nested_loop : Option (List NestedLoopItem)) : DuplicatesRemoval

/-- A buffered sub-stage (`BufferResult`). -/
inductive BufferResult where
  | mk
    (using_temporary_table : Option Bool)
    (table : Option TableInfo)
    (nested_loop : Option (List NestedLoopItem)) : BufferResult

/-- A UNION stage (`UnionResult`); each query specification is represented
by its `query_block`. -/
inductive UnionResult where
  | mk
    (using_temporary_table : Bool)
    (query_specifications : List QueryBlock) : UnionResult

/-- A plan block (`QueryBlock`); each subquery reference is represented by
its `query_block`. -/
inductive QueryBlock where
  | mk
    (table : Option TableInfo)
    (nested_loop : Option (List NestedLoopItem))
    (ordering_operation : Option OrderingOperation)
    (grouping_operation : Option GroupingOperation)
    (duplicates_removal : Option DuplicatesRemoval)
    (union_result : Option UnionResult)
    (subqueries : Option (List QueryBlock))
    (optimized_away_subqueries : Option (List QueryBlock))
    (attached_subqueries : Option (List QueryBlock))
    (query_block : Option QueryBlock)
    (message : Option String) : QueryBlock
end

def TableInfo.table_name : TableInfo → String
  | .mk v _ _ _ _ _ _ _ _ _ _ _ _ _ => v

def TableInfo.access_type : TableInfo → AccessType
  | .mk _ v _ _ _ _ _ _ _ _ _ _ _ _ => v

def TableInfo.key : TableInfo → Option String
  | .mk _ _ v _ _ _ _ _ _ _ _ _ _ _ => v

def TableInfo.used_key_parts : TableInfo → Option (List String)
  | .mk _ _ _ v _ _ _ _ _ _ _ _ _ _ => v

def TableInfo.attached_condition : TableInfo → Option String
  | .mk _ _ _ _ v _ _ _ _ _ _ _ _ _ => v

def TableInfo.cost_info : TableInfo → Option CostInfo
  | .mk _ _ _ _ _ v _ _ _ _ _ _ _ _ => v

def TableInfo.rows_examined_per_scan : TableInfo → Option ℕ
  | .mk _ _ _ _ _ _ v _ _ _ _ _ _ _ => v

def TableInfo.rows_produced_per_join : TableInfo → Option ℕ
  | .mk _ _ _ _ _ _ _ v _ _ _ _ _ _ => v

def TableInfo.using_index : TableInfo → Option Bool
  | .mk _ _ _ _ _ _ _ _ v _ _ _ _ _ => v

def TableInfo.using_temporary : TableInfo → Option Bool
  | .mk _ _ _ _ _ _ _ _ _ v _ _ _ _ => v

def TableInfo.using_filesort : TableInfo → Option Bool
  | .mk _ _ _ _ _ _ _ _ _ _ v _ _ _ => v

def TableInfo.using_index_condition : TableInfo → Option String
  | .mk _ _ _ _ _ _ _ _ _ _ _ v _ _ => v

def TableInfo.message : TableInfo → Option String
  | .mk _ _ _ _ _ _ _ _ _ _ _ _ v _ => v

def TableInfo.materialized_from_subquery : TableInfo → Option QueryBlock
  | .mk _ _ _ _ _ _ _ _ _ _ _ _ _ v => v

def NestedLoopItem.table : NestedLoopItem → TableInfo
  | .mk v => v

/-! ### Normalized output graph -/

/-- The node kinds (`NodeType`). -/
inductive NodeType where
  | select | table | join | sort | group | distinct | union | subquery
  | temp_table | buffer
deriving DecidableEq, Repr

/-- The canonical flat plan node (`PlanNode`); `rawData` is omitted
(an opaque snapshot the core never reads). -/
structure PlanNode where
  id : ℕ
  type : NodeType
  label : String
  cost : JSNum
  rows : ℕ
  table : Option String := none
  accessType : Option AccessType := none
  key : Option String := none
  keyParts : Option (List String) := none
  condition : Option String := none
  extra : List String
  children : List ℕ
  isCriticalPath : Bool := false
deriving DecidableEq, Repr

/-- A producer → consumer edge: `{ source, target }`. -/
structure EdgeRec where
  source : ℕ
  target : ℕ
deriving DecidableEq, Repr

/-- One parse function's result: emitted nodes and edges, in push order. -/
structure PR where
  nodes : List PlanNode
  edges : List EdgeRec
deriving DecidableEq, Repr

def PR.empty : PR := ⟨[], []⟩

/-- Sequential accumulation of two results (`nodes.push(...)`,
`edges.push(...)`). -/
def PR.append (a b : PR) : PR := ⟨a.nodes ++ b.nodes, a.edges ++ b.edges⟩

/-- Ids of the nodes of a result, in emission order. -/
def PR.ids (r : PR) : List ℕ := r.nodes.map (·.id)

/-- The edge a freshly created node pushes toward its attachment point:
`if (parentId) edges.push({ source: nodeId, target: parentId })`. -/
def parentEdge (nodeId : ℕ) : Option ℕ → List EdgeRec
  | some p => [⟨nodeId, p⟩]
  | none => []

/-! ### Cost and annotation extraction -/

/-- `parseCost`: first truthy of `query_cost`, `read_cost`, `prefix_cost`,
converted by `parseFloat`; 0 when the record or every field is absent or
empty. -/
def parseCost : Option CostInfo → JSNum
  | none => .num 0
  | some ci =>
    match jsOrStr (jsOrStr ci.query_cost ci.read_cost) ci.prefix_cost with
    | some s => if s = "" then .num 0 else jsParseFloat s
    | none => .num 0

/-- JS truthiness of an optional bool flag. -/
def flagSet : Option Bool → Bool
  | some b => b
  | none => false

/-- JS truthiness of an optional string field. -/
def strSet : Option String → Bool
  | some s => s ≠ ""
  | none => false

/-- `getExtraInfo`: annotation strings in fixed detection order. -/
def getExtraInfo (table : TableInfo) : List String :=
  (if flagSet table.using_index then ["Using index"] else []) ++
  (if flagSet table.using_temporary then ["Using temporary"] else []) ++
  (if flagSet table.using_filesort then ["Using filesort"] else []) ++
  (if strSet table.using_index_condition then ["Using index condition"] else []) ++
  (match table.message with
    | some m => if m ≠ "" then [m] else []
    | none => [])

/-- The per-item row estimate of the nested-loop join fold:
`item.table.rows_produced_per_join || item.table.rows_examined_per_scan || 0`. -/
def itemRowEstimate (t : TableInfo) : ℕ :=
  jsOrRows t.rows_produced_per_join t.rows_examined_per_scan

/-- The join row fold: `(sum, item) => sum === 0 ? rows : sum * rows`,
starting from 0. -/
def joinRowsFold (items : List NestedLoopItem) : ℕ :=
  items.foldl
    (fun sum item =>
      let rows := itemRowEstimate item.table
      if sum = 0 then rows else sum * rows) 0

/-- The join cost fold: `(sum, item) => sum + parseCost(item.table.cost_info)`,
starting from the JS number 0. -/
def joinCostFold (items : List NestedLoopItem) : JSNum :=
  items.foldl (fun sum item => jsAdd sum (parseCost item.table.cost_info)) (.num 0)

/-! ### The recursive plan tree parser

Each function takes and returns the id counter; `generateId` is the step
from counter `c` to the fresh id `c + 1`.  The `step…` helpers embed the
source's `if (x) { … parse…(x, parent) … }` guards on optional fields
(a JS object or a non-empty array is truthy; an absent field skips the
step and leaves the counter unchanged).  The `forEach` loops over nested
loop items, subquery lists and union branches are embedded as structural
list recursions emitting results in the same order. -/

/-- The message-only fallback at the end of `parseQueryBlock`
(parser.ts:296-311): when the level produced no nodes and carries a
non-empty diagnostic message, emit a single node of the level's
designated type. -/
def stepMessage (msg : Option String) (blockType : NodeType) (parentId : Option ℕ)
    (combined : PR) (c : ℕ) : PR × ℕ :=
  match msg with
  | some m =>
    if m ≠ "" ∧ combined.nodes = [] then
      let msgId := c + 1
      let msgNode : PlanNode :=
        { id := msgId, type := blockType, label := m,
          cost := .num 0, rows := 0, extra := [], children := [] }
      (⟨combined.nodes ++ [msgNode], combined.edges ++ parentEdge msgId parentId⟩, msgId)
    else (combined, c)
  | none => (combined, c)

mutual
/-- `parseTable` (parser.ts:34-70). -/
def parseTable (table : TableInfo) (parentId : Option ℕ) (c : ℕ) : PR × ℕ :=
  match table with
  | .mk nm aty k ukp cond ci res rpj ui ut uf uic msg mat =>
    let nodeId := c + 1
    let (subPR, cEnd) := match mat with
      | some qb => parseQueryBlock qb (some nodeId) NodeType.subquery nodeId
      | none => (PR.empty, nodeId)
    let node : PlanNode :=
      { id := nodeId, type := .table,
        label := if nm = "" then "Unknown Table" else nm,
        cost := parseCost ci,
        rows := jsOrRows res rpj,
        table := some nm, accessType := some aty, key := k, keyParts := ukp,
        condition := cond,
        extra := getExtraInfo (.mk nm aty k ukp cond ci res rpj ui ut uf uic msg mat),
        children := subPR.ids }
    (⟨node :: subPR.nodes, parentEdge nodeId parentId ++ subPR.edges⟩, cEnd)

/-- The `items.forEach(item => parseTable(item.table, joinId))` loop of
`parseNestedLoop`, accumulating nodes and edges in item order. -/
def parseNLItems (items : List NestedLoopItem) (joinId : Option ℕ) (c : ℕ) : PR × ℕ :=
  match items with
  | [] => (PR.empty, c)
  | .mk t :: rest =>
    let (r1, c1) := parseTable t joinId c
    let (r2, c2) := parseNLItems rest joinId c1
    (PR.append r1 r2, c2)

/-- `parseNestedLoop` (parser.ts:72-121): a join node over ≥ 2 tables, a
bare table for a single entry, nothing for an empty list. -/
def parseNestedLoop (items : List NestedLoopItem) (parentId : Option ℕ) (c : ℕ) : PR × ℕ :=
  match items with
  | [] => (PR.empty, c)
  | [.mk t] => parseTable t parentId c
  | .mk t :: next :: rest =>
    let joinId := c + 1
    let items0 := NestedLoopItem.mk t :: next :: rest
    let totalCost := joinCostFold items0
    let totalRows := joinRowsFold items0
    let (r1, c1) := parseTable t (some joinId) joinId
    let (r2, c2) := parseNLItems (next :: rest) (some joinId) c1
    let sub := PR.append r1 r2
    let joinNode : PlanNode :=
      { id := joinId, type := .join, label := "Nested Loop Join",
        cost := totalCost, rows := totalRows,
        extra := [], children := sub.ids }
    (⟨joinNode :: sub.nodes, parentEdge joinId parentId ++ sub.edges⟩, c2)

/-- The guard `if (x.nested_loop) { parseNestedLoop(x.nested_loop, parent) }`. -/
def stepNestedLoop (onl : Option (List NestedLoopItem)) (parentId : Option ℕ) (c : ℕ) : PR × ℕ :=
  match onl with
  | some items => parseNestedLoop items parentId c
  | none => (PR.empty, c)

/-- The guard `if (x.table) { parseTable(x.table, parent) }`. -/
def stepTable (ot : Option TableInfo) (parentId : Option ℕ) (c : ℕ) : PR × ℕ :=
  match ot with
  | some t => parseTable t parentId c
  | none => (PR.empty, c)

/-- The guard `if (x.grouping_operation) { parseGroupingOperation(...) }`
(the absent-argument early return of `parseGroupingOperation` is the
`none` case here). -/
def stepGrouping (og : Option GroupingOperation) (parentId : Option ℕ) (c : ℕ) : PR × ℕ :=
  match og with
  | some g => parseGroupingOperation g parentId c
  | none => (PR.empty, c)

/-- The guard `if (x.buffer_result) { parseBufferResult(...) }`. -/
def stepBuffer (ob : Option BufferResult) (parentId : Option ℕ) (c : ℕ) : PR × ℕ :=
  match ob with
  | some b => parseBufferResult b parentId c
  | none => (PR.empty, c)

/-- The guard `if (block.query_block) { parseQueryBlock(...) }` for a
nested plan block. -/
def stepQueryBlock (oqb : Option QueryBlock) (parentId : Option ℕ) (c : ℕ) : PR × ℕ :=
  match oqb with
  | some qb => parseQueryBlock qb parentId NodeType.select c
  | none => (PR.empty, c)

/-- `allSubqueries.forEach(sub => parseQueryBlock(sub.query_block, parent,
'subquery'))`; the source concatenates the three optional subquery lists
and iterates once, which equals iterating each list in order. -/
def parseSubqueryList (subs : List QueryBlock) (parentId : Option ℕ) (c : ℕ) : PR × ℕ :=
  match subs with
  | [] => (PR.empty, c)
  | qb :: rest =>
    let (r1, c1) := parseQueryBlock qb parentId NodeType.subquery c
    let (r2, c2) := parseSubqueryList rest parentId c1
    (PR.append r1 r2, c2)

/-- The guard over one optional subquery list (`...(block.subqueries || [])`). -/
def stepSubqueries (osubs : Option (List QueryBlock)) (parentId : Option ℕ) (c : ℕ) : PR × ℕ :=
  match osubs with
  | some subs => parseSubqueryList subs parentId c
  | none => (PR.empty, c)

/-- `union_result.query_specifications?.forEach(spec =>
parseQueryBlock(spec.query_block, unionId))`. -/
def parseUnionSpecs (specs : List QueryBlock) (unionId : ℕ) (c : ℕ) : PR × ℕ :=
  match specs with
  | [] => (PR.empty, c)
  | qb :: rest =>
    let (r1, c1) := parseQueryBlock qb (some unionId) NodeType.select c
    let (r2, c2) := parseUnionSpecs rest unionId c1
    (PR.append r1 r2, c2)

/-- `parseGroupingOperation` (parser.ts:316-368). -/
def parseGroupingOperation (groupOp : GroupingOperation) (parentId : Option ℕ) (c : ℕ) : PR × ℕ :=
  match groupOp with
  | .mk uf utt ci otbl onl obr =>
    let groupId := c + 1
    let (r1, c1) := stepNestedLoop onl (some groupId) groupId
    let (r2, c2) := stepTable otbl (some groupId) c1
    let (r3, c3) := stepBuffer obr (some groupId) c2
    let node : PlanNode :=
      { id := groupId, type := .group, label := "GROUP BY",
        cost := parseCost ci, rows := 0,
        extra := (if flagSet uf then ["Using filesort"] else []) ++
          (if flagSet utt then ["Using temporary table"] else []),
        children := [] }
    (⟨node :: (r1.nodes ++ r2.nodes ++ r3.nodes),
      parentEdge groupId parentId ++ (r1.edges ++ r2.edges ++ r3.edges)⟩, c3)

/-- `parseBufferResult` (parser.ts:370-409); the parameter is the
`buffer_result` value and the source reads only its temporary-table flag,
nested loop and table. -/
def parseBufferResult (buffer : BufferResult) (parentId : Option ℕ) (c : ℕ) : PR × ℕ :=
  match buffer with
  | .mk utt otbl onl =>
    let bufferId := c + 1
    let (r1, c1) := stepNestedLoop onl (some bufferId) bufferId
    let (r2, c2) := stepTable otbl (some bufferId) c1
    let node : PlanNode :=
      { id := bufferId, type := .buffer, label := "Buffer Result",
        cost := .num 0, rows := 0,
        extra := if flagSet utt then ["Using temporary table"] else [],
        children := [] }
    (⟨node :: (r1.nodes ++ r2.nodes),
      parentEdge bufferId parentId ++ (r1.edges ++ r2.edges)⟩, c2)

/-- `parseQueryBlock` (parser.ts:123-314): priority dispatch over the
shapes a block level may take. -/
def parseQueryBlock (block : QueryBlock) (parentId : Option ℕ) (blockType : NodeType) (c : ℕ) :
    PR × ℕ :=
  match block with
  | .mk tbl nl oo go dr ur osq ooas oatt oqb msg =>
    match oo with
    | some (.mk uf utt ci otbl onl ogo) =>
      -- ORDER BY: sort node, then its nested loop (becoming the sort's
      -- children), grouping operation and table, all attached to the sort.
      let sortId := c + 1
      let (r1, c1) := stepNestedLoop onl (some sortId) sortId
      let (r2, c2) := stepGrouping ogo (some sortId) c1
      let (r3, c3) := stepTable otbl (some sortId) c2
      let sortNode : PlanNode :=
        { id := sortId, type := .sort, label := "ORDER BY",
          cost := parseCost ci, rows := 0,
          extra := (if uf then ["Using filesort"] else []) ++
            (if flagSet utt then ["Using temporary table"] else []),
          children := r1.ids }
      (⟨sortNode :: (r1.nodes ++ r2.nodes ++ r3.nodes),
        parentEdge sortId parentId ++ (r1.edges ++ r2.edges ++ r3.edges)⟩, c3)
    | none =>
    match go with
    | some g => parseGroupingOperation g parentId c
    | none =>
    match dr with
    | some (.mk duf dutt dci dotbl donl) =>
      -- DISTINCT: distinct node, then its nested loop and table.
      let distinctId := c + 1
      let (r1, c1) := stepNestedLoop donl (some distinctId) distinctId
      let (r2, c2) := stepTable dotbl (some distinctId) c1
      let node : PlanNode :=
        { id := distinctId, type := .distinct, label := "DISTINCT",
          cost := parseCost dci, rows := 0,
          extra := (if flagSet duf then ["Using filesort"] else []) ++
            (if flagSet dutt then ["Using temporary table"] else []),
          children := [] }
      (⟨node :: (r1.nodes ++ r2.nodes),
        parentEdge distinctId parentId ++ (r1.edges ++ r2.edges)⟩, c2)
    | none =>
    match ur with
    | some (.mk uutt specs) =>
      -- UNION: union node, then every branch attached to it.
      let unionId := c + 1
      let (r1, c1) := parseUnionSpecs specs unionId unionId
      let node : PlanNode :=
        { id := unionId, type := .union, label := "UNION",
          cost := .num 0, rows := 0,
          extra := if uutt then ["Using temporary table"] else [],
          children := [] }
      (⟨node :: r1.nodes, parentEdge unionId parentId ++ r1.edges⟩, c1)
    | none =>
      -- Nested loop, table, subqueries, nested block, in source order,
      -- all attached to the incoming attachment point.
      let (r1, c1) := stepNestedLoop nl parentId c
      let (r2, c2) := stepTable tbl parentId c1
      let (r3, c3) := stepSubqueries osq parentId c2
      let (r4, c4) := stepSubqueries ooas parentId c3
      let (r5, c5) := stepSubqueries oatt parentId c4
      let (r6, c6) := stepQueryBlock oqb parentId c5
      let combined := PR.append r1 (PR.append r2 (PR.append r3
        (PR.append r4 (PR.append r5 r6))))
      -- Message-only block: a single node of the level's designated type.
      stepMessage msg blockType parentId combined c6
end

/-! ### Critical path annotator (parser.ts:411-461)

The source memoizes cumulative costs in a `Map` filled by recursing from
every root; the embedding recomputes the same pure recursion at each use.
The recursions descend through `children` links, along which node ids
strictly increase on parser outputs, so the fuel `nodes.length` used below
is never exhausted there (proved where a claim needs it). -/

/-- `nodes.find(n => n.id === nodeId)`. -/
def findNode (nodes : List PlanNode) (nodeId : ℕ) : Option PlanNode :=
  nodes.find? (fun n => n.id = nodeId)

/-- `calculateCumulativeCost`: own cost plus `Math.max(0, ...childCosts)`. -/
def cumulativeCost (nodes : List PlanNode) : ℕ → ℕ → JSNum
  | 0, _ => .num 0
  | fuel + 1, nodeId =>
    match findNode nodes nodeId with
    | none => .num 0
    | some node =>
      let childCosts := node.children.map (cumulativeCost nodes fuel)
      jsAdd node.cost (childCosts.foldl jsMax (.num 0))

/-- Stable descending insertion by cost: a pair moves past exactly the
pairs of strictly smaller cost, which is the list any stable sort under
the comparator `(a, b) => b.cost - a.cost` produces (`Array.prototype.sort`
is stable). -/
def insertCostDesc (p : ℕ × ℚ) : List (ℕ × ℚ) → List (ℕ × ℚ)
  | [] => [p]
  | q :: rest => if q.2 < p.2 then p :: q :: rest else q :: insertCostDesc p rest

/-- The sorted pair list `pairs.sort((a, b) => b.cost - a.cost)`. -/
def sortCostDesc (l : List (ℕ × ℚ)) : List (ℕ × ℚ) :=
  l.foldl (fun acc p => insertCostDesc p acc) []

/-- `markPath`: the ids the greedy descent marks, in order — the current
node, then recursively the head of its cost-sorted children.  `cost` is
`nodeCosts.get(id) || 0`. -/
def markPathIds (nodes : List PlanNode) (cost : ℕ → ℚ) : ℕ → ℕ → List ℕ
  | 0, _ => []
  | fuel + 1, nodeId =>
    match findNode nodes nodeId with
    | none => []
    | some node =>
      if node.children = [] then [nodeId]
      else
        match sortCostDesc (node.children.map (fun cid => (cid, cost cid))) with
        | [] => [nodeId]
        | best :: _ => nodeId :: markPathIds nodes cost fuel best.1

/-- The cumulative cost as `markPath` reads it from the memo map:
`nodeCosts.get(childId) || 0` (NaN and a missing entry both give 0). -/
def nodeCostOrZero (nodes : List PlanNode) (nodeId : ℕ) : ℚ :=
  jsOrZero (cumulativeCost nodes nodes.length nodeId)

/-- The per-node marking step `markCriticalPath` performs: set
`isCriticalPath` on a node whose id lies on the marked path
(`node.isCriticalPath = true` in `markPath`), leave it unchanged
otherwise. -/
def markFun (ids0 : List ℕ) (n : PlanNode) : PlanNode :=
  if ids0.contains n.id then { n with isCriticalPath := true } else n

/-- `markCriticalPath` (parser.ts:411-461): find the roots (nodes that are
no node's child), start from the root of maximal cumulative cost, and mark
the greedy maximal-cost chain. -/
def markCriticalPath (nodes : List PlanNode) : List PlanNode :=
  if nodes = [] then nodes
  else
    let allChildren := nodes.flatMap (·.children)
    let rootNodes := nodes.filter (fun n => ¬ allChildren.contains n.id)
    let rootCosts := rootNodes.map (fun n => (n.id, nodeCostOrZero nodes n.id))
    match sortCostDesc rootCosts with
    | [] => nodes
    | best :: _ =>
      let path := markPathIds nodes (nodeCostOrZero nodes) nodes.length best.1
      nodes.map (markFun path)

/-! ### Layout engine (parser.ts:516-604) -/

def nodeWidth : ℚ := 280
def nodeHeight : ℚ := 120
def horizontalGap : ℚ := 60
def verticalGap : ℚ := 80

/-- `childrenMap.get(t)`: the sources of the edges targeting `t`, in edge
order (the source builds the map by pushing each edge's source onto its
target's list). -/
def layoutChildren (edges : List EdgeRec) (t : ℕ) : List ℕ :=
  (edges.filter (fun e => e.target = t)).map (·.source)

/-- `parentMap.has(i)`: whether some edge has source `i`. -/
def hasParent (edges : List EdgeRec) (i : ℕ) : Bool :=
  edges.any (fun e => e.source = i)

/-- `calcWidth`: a leaf reserves the node width; an inner node the larger
of the node width and its children's widths plus gaps. -/
def calcWidth (cm : ℕ → List ℕ) : ℕ → ℕ → ℚ
  | 0, _ => nodeWidth
  | fuel + 1, nodeId =>
    let children := cm nodeId
    if children = [] then nodeWidth
    else
      let totalChildWidth :=
        children.foldl (fun sum cid => sum + calcWidth cm fuel cid + horizontalGap)
          (-horizontalGap)
      max nodeWidth totalChildWidth

/-- The mutable layout traversal state: the `positioned` set and the
assigned positions. -/
structure LayoutState where
  positioned : List ℕ
  pos : List (ℕ × ℚ × ℚ)
deriving DecidableEq, Repr

/-- The `children.forEach` loop of `positionNode`: position each child at
the centre of its reserved span, one gap apart, a row below; `go` is the
recursive call at the remaining fuel. -/
def positionChildren (w : ℕ → ℚ) (go : ℕ → ℚ → ℚ → LayoutState → LayoutState) :
    List ℕ → ℚ → ℚ → LayoutState → LayoutState
  | [], _, _, st => st
  | cid :: rest, childX, y, st =>
    let childWidth := w cid
    let childCenterX := childX + childWidth / 2 - nodeWidth / 2
    let st1 := go cid childCenterX (y + nodeHeight + verticalGap) st
    positionChildren w go rest (childX + childWidth + horizontalGap) y st1

/-- `positionNode`: skip an already positioned node, else record it, place
it at `(x, y)` when it exists in the node list, and lay out its children
centred under it. -/
def positionNode (ids : List ℕ) (cm : ℕ → List ℕ) (w : ℕ → ℚ) :
    ℕ → ℕ → ℚ → ℚ → LayoutState → LayoutState
  | 0, _, _, _, st => st
  | fuel + 1, nodeId, x, y, st =>
    if nodeId ∈ st.positioned then st
    else
      let st1 : LayoutState := ⟨nodeId :: st.positioned, st.pos⟩
      if nodeId ∈ ids then
        let st2 : LayoutState := ⟨st1.positioned, (nodeId, x, y) :: st1.pos⟩
        let children := cm nodeId
        if children = [] then st2
        else
          let totalChildWidth :=
            children.foldl (fun sum cid => sum + w cid + horizontalGap) (-horizontalGap)
          let childX := x + (nodeWidth - totalChildWidth) / 2
          positionChildren w (positionNode ids cm w fuel) children childX y st2
      else st1

/-- `applyLayout` (parser.ts:516-604): subtree widths bottom-up, positions
top-down from each root left to right, then a fallback vertical stack for
nodes the traversal never reached. -/
def applyLayout (ids : List ℕ) (edges : List EdgeRec) : List (ℕ × ℚ × ℚ) :=
  let cm := layoutChildren edges
  let roots := ids.filter (fun i => ¬ hasParent edges i)
  let w : ℕ → ℚ := fun i => calcWidth cm (ids.length + 1) i
  let stRoots := roots.foldl
    (fun (acc : LayoutState × ℚ) r =>
      let st1 := positionNode ids cm w (ids.length + 1) r acc.2 0 acc.1
      (st1, acc.2 + w r + horizontalGap * 2))
    (⟨[], []⟩, 0)
  let orphans := ids.foldl
    (fun (acc : List (ℕ × ℚ × ℚ) × ℚ) i =>
      if i ∈ stRoots.1.positioned then acc
      else ((i, stRoots.2, acc.2) :: acc.1, acc.2 + nodeHeight + verticalGap))
    (stRoots.1.pos, 0)
  orphans.1

/-- The position the layout assigned to node `i`. -/
def posOf (l : List (ℕ × ℚ × ℚ)) (i : ℕ) : Option (ℚ × ℚ) :=
  (l.find? (fun e => e.1 = i)).map (·.2)

/-! ### Entry point (parser.ts:463-514) -/

/-- The top level EXPLAIN document. -/
structure MySQLExplainJSON where
  query_block : QueryBlock

/-- What `parseExplainJSON` returns and the rendering layer consumes:
the marked plan nodes in discovery order, the producer → consumer edge
list, the layout positions of the ReactFlow node copies, and the flat
total cost.  (The ReactFlow edge objects only repeat `source`/`target`
plus per-edge presentation data, and `maxCost` is presentational; neither
is modelled separately.) -/
structure ParsedPlan where
  planNodes : List PlanNode
  edges : List EdgeRec
  positions : List (ℕ × ℚ × ℚ)
  totalCost : JSNum
deriving DecidableEq, Repr

/-- `parseExplainJSON` (parser.ts:463-514).  The global id counter is the
second component; the source resets it to 0 at the start of every call
(`nodeIdCounter = 0`), so the incoming counter value is discarded. -/
def parseExplainJSON (json : MySQLExplainJSON) (nodeIdCounter : ℕ) : ParsedPlan × ℕ :=
  let (result, cEnd) := parseQueryBlock json.query_block none NodeType.select 0
  let planNodes := markCriticalPath result.nodes
  let totalCost := planNodes.foldl (fun sum node => jsAdd sum node.cost) (.num 0)
  let positions := applyLayout (planNodes.map (·.id)) result.edges
  (⟨planNodes, result.edges, positions, totalCost⟩, cEnd)

/-! ### Validation (parser.ts:606-618) -/

/-- A parsed JSON value, as `JSON.parse` can return it. -/
inductive JValue where
  | null : JValue
  | bool (b : Bool) : JValue
  | num (q : ℚ) : JValue
  | str (s : String) : JValue
  | arr (elems : List JValue) : JValue
  | obj (fields : List (String × JValue)) : JValue

/-- JS property access `v.key`: only objects have fields; on any other
non-null value the result is `undefined` (`none`). -/
def getField : JValue → String → Option JValue
  | .obj fields, k => (fields.find? (fun f => f.1 = k)).map (·.2)
  | _, _ => none

/-- JS truthiness of a property access result. -/
def jsTruthy : Option JValue → Bool
  | none => false
  | some .null => false
  | some (.bool b) => b
  | some (.num q) => q ≠ 0
  | some (.str s) => s ≠ ""
  | some (.arr _) => true
  | some (.obj _) => true

/-- The two rejection messages of `validateExplainJSON`, by kind: the
`catch` branch's "Invalid JSON: …" and the explicit
"Invalid MySQL EXPLAIN JSON: missing query_block". -/
inductive ValidationError where
  | invalidJSON : ValidationError
  | missingQueryBlock : ValidationError
deriving DecidableEq, Repr

/-- The `{ valid, error?, data? }` record. -/
structure ValidationResult where
  valid : Bool
  error : Option ValidationError
  data : Option JValue

/-- `validateExplainJSON` (parser.ts:606-618) over the outcome of
`JSON.parse` on the input text: `none` models a parse exception.  When the
parse yields `null`, the property access `parsed.query_block` throws a
`TypeError` that the same `catch` turns into the "Invalid JSON" message.
Otherwise the input is rejected as missing `query_block` exactly when that
property is falsy. -/
def validateExplainJSON (parsed : Option JValue) : ValidationResult :=
  match parsed with
  | none => ⟨false, some .invalidJSON, none⟩
  | some .null => ⟨false, some .invalidJSON, none⟩
  | some v =>
    if jsTruthy (getField v "query_block") then ⟨true, none, some v⟩
    else ⟨false, some .missingQueryBlock, none⟩

/-! ### Specification-side definitions

These follow the spec's and the claims' words, independently of the code
above, and are compared with the code in the claim theorems. -/

/-- Claim wording (C10): the table node's `rows` is the examined-row
estimate when present and nonzero, otherwise the produced-row estimate
when present and nonzero, otherwise 0. -/
def specTableRows (t : TableInfo) : ℕ :=
  match t.rows_examined_per_scan with
  | some n => if n ≠ 0 then n else
      (match t.rows_produced_per_join with
       | some m => if m ≠ 0 then m else 0
       | none => 0)
  | none =>
    match t.rows_produced_per_join with
    | some m => if m ≠ 0 then m else 0
    | none => 0

/-- Claim wording (C10): the join estimate's per-table factor prefers the
produced-row estimate over the examined-row estimate. -/
def specItemRows (t : TableInfo) : ℕ :=
  match t.rows_produced_per_join with
  | some n => if n ≠ 0 then n else
      (match t.rows_examined_per_scan with
       | some m => if m ≠ 0 then m else 0
       | none => 0)
  | none =>
    match t.rows_examined_per_scan with
    | some m => if m ≠ 0 then m else 0
    | none => 0

/-- Claim wording (C4): each table's produced-row estimate, falling back
to its examined-row estimate (0 when both are absent). -/
def specProducedFallback (t : TableInfo) : ℕ :=
  match t.rows_produced_per_join with
  | some n => n
  | none =>
    match t.rows_examined_per_scan with
    | some m => m
    | none => 0

/-- Claim wording (C4): the plain product, in input order, of the
per-table row estimates. -/
def specRowProduct (items : List NestedLoopItem) : ℕ :=
  items.foldl (fun acc item => acc * specProducedFallback item.table) 1

/-- Claim wording (C4): the sum of each table entry's extracted cost. -/
def specCostSum (items : List NestedLoopItem) : JSNum :=
  items.foldr (fun item acc => jsAdd (parseCost item.table.cost_info) acc) (.num 0)

/-- Amended claim wording (C4): the join row estimate folds the per-table
estimates (produced-row first, per C10's `specItemRows`) left to right
starting from 0, where an estimate replaces a zero accumulator and
multiplies a nonzero one — so leading zero estimates are skipped rather
than zeroing the product. -/
def specAmendedJoinRows (items : List NestedLoopItem) : ℕ :=
  items.foldl
    (fun acc item =>
      let r := specItemRows item.table
      if acc = 0 then r else acc * r) 0

/-- The maximum of a rational list, 0 for the empty list — the claim's
"maximum cumulative cost among its children (0 for leaves)" (C2). -/
def maxQ : List ℚ → ℚ
  | [] => 0
  | a :: rest => rest.foldl max a

/-- Claim wording (C2): a node's cumulative cost is its own cost plus the
maximum cumulative cost among its children, 0 for leaves.  The recursion
descends through `children`, along which ids strictly increase on parser
outputs, so fuel `nodes.length` suffices there. -/
def specCumCost (nodes : List PlanNode) : ℕ → ℕ → ℚ
  | 0, _ => 0
  | fuel + 1, nodeId =>
    match findNode nodes nodeId with
    | none => 0
    | some node =>
      jsOrZero node.cost + maxQ (node.children.map (specCumCost nodes fuel))

/-- Claim wording (C2): the first element of maximal cost in a list —
"the child with the greatest cumulative cost, ties broken by the first
such child in `children` order". -/
def firstMaxBy (cost : ℕ → ℚ) : List ℕ → Option ℕ
  | [] => none
  | a :: rest =>
    match firstMaxBy cost rest with
    | none => some a
    | some b => if cost a < cost b then some b else some a

/-- A root id for the critical-path annotator: a node of the list that is
no node's child (C2). -/
def IsRootId (nodes : List PlanNode) (i : ℕ) : Prop :=
  i ∈ nodes.map (·.id) ∧ ∀ n ∈ nodes, i ∉ n.children

/-- The cumulative cost at the standard fuel, the cost measure of the
critical-path claims. -/
def ccost (nodes : List PlanNode) (i : ℕ) : ℚ :=
  specCumCost nodes nodes.length i

/-- The greedy critical path of claim C2: nonempty, starts at a root of
globally maximal cumulative cost, each step descends to the first child
of maximal cumulative cost, ends at a leaf, and never repeats a node. -/
structure GreedyPath (nodes : List PlanNode) (p : List ℕ) : Prop where
  nonempty : p ≠ []
  head_root : ∀ h, p.head? = some h →
    IsRootId nodes h ∧ ∀ r, IsRootId nodes r → ccost nodes r ≤ ccost nodes h
  steps : p.Chain' (fun a b => ∃ n ∈ nodes, n.id = a ∧
    firstMaxBy (ccost nodes) n.children = some b)
  last_leaf : ∀ l, p.getLast? = some l → ∃ n ∈ nodes, n.id = l ∧ n.children = []
  nodup : p.Nodup

/-- The number of nodes whose id is at least `i` — the strictly decreasing
measure of the fuelled recursions on the node graph (ids strictly increase
along `children` links on parser outputs). -/
def cntAbove (ns : List PlanNode) (i : ℕ) : ℕ :=
  ((ns.map (·.id)).filter (fun x => i ≤ x)).length

/-- The head of the cost-descending insertion sort, as a single left fold:
processing pairs left to right, keep the earlier pair unless the later one
has strictly greater cost. -/
def headStep (m : Option (ℕ × ℚ)) (x : ℕ × ℚ) : Option (ℕ × ℚ) :=
  some (match m with
    | none => x
    | some q => if q.2 < x.2 then x else q)

/-- The number of entries of an id list that are at least `i` — the
decreasing measure of the layout traversal. -/
def cntIds (ids : List ℕ) (i : ℕ) : ℕ :=
  (ids.filter (fun x => i ≤ x)).length

/-- Reachability through the layout `childrenMap`: the nodes of the
subtree the positioning traversal visits from `t`. -/
inductive ReachCM (cm : ℕ → List ℕ) : ℕ → ℕ → Prop where
  | refl (t : ℕ) : ReachCM cm t t
  | step {t c d : ℕ} (hc : c ∈ cm t) (h : ReachCM cm c d) : ReachCM cm t d

/-- `totalChildWidth`: the children's reserved widths plus one gap between
each pair. -/
def totalW (w : ℕ → ℚ) (l : List ℕ) : ℚ :=
  l.foldl (fun s c => s + w c + horizontalGap) (-horizontalGap)

/-- The positions the `children.forEach` loop of `positionNode` assigns:
walking the child list from reserved-span start `cx`, each child sits at
the centre of its span, one row below its parent (`y` is the child row),
and the span start advances by the child's width plus the gap. -/
def ChildrenPlaced (w : ℕ → ℚ) (pos : List (ℕ × ℚ × ℚ)) : List ℕ → ℚ → ℚ → Prop
  | [], _, _ => True
  | c :: rest, cx, y =>
    posOf pos c = some (cx + w c / 2 - nodeWidth / 2, y) ∧
    ChildrenPlaced w pos rest (cx + w c + horizontalGap) y

/-- Every node of the subtree below `root` has its children laid out
centred under it, one row further down. -/
def SubtreeLaid (cm : ℕ → List ℕ) (w : ℕ → ℚ) (pos : List (ℕ × ℚ × ℚ)) (root : ℕ) : Prop :=
  ∀ t, ReachCM cm root t → ∀ xt yt, posOf pos t = some (xt, yt) →
    ChildrenPlaced w pos (cm t) (xt + (nodeWidth - totalW w (cm t)) / 2)
      (yt + nodeHeight + verticalGap)

/-- One step of the `roots.forEach` loop of `applyLayout`: position the
root's subtree at the running x offset, then advance the offset by the
root's subtree width plus a double gap. -/
def rootsStep (ids : List ℕ) (edges : List EdgeRec) (w : ℕ → ℚ)
    (acc : LayoutState × ℚ) (r : ℕ) : LayoutState × ℚ :=
  (positionNode ids (layoutChildren edges) w (ids.length + 1) r acc.2 0 acc.1,
   acc.2 + w r + horizontalGap * 2)

/-! ### Concrete example inputs -/

/-- A table record with just a name, an access type, an optional read
cost and optional row estimates. -/
def mkTableIn (nm : String) (cost : Option String) (rexam rprod : Option ℕ) : TableInfo :=
  .mk nm "ALL" none none none (cost.map (fun s => { read_cost := some s }))
    rexam rprod none none none none none none

/-- A block holding just a table and/or a nested loop. -/
def mkBlockIn (tbl : Option TableInfo) (nl : Option (List NestedLoopItem)) : QueryBlock :=
  .mk tbl nl none none none none none none none none none

/-- A single bare table, read cost 25, 100 examined rows. -/
def exSimple : MySQLExplainJSON :=
  ⟨mkBlockIn (some (mkTableIn "users" (some "25") (some 100) none)) none⟩

/-- A query block with no recognized content and no message: the parse
emits zero nodes (C2's counterexample: nothing is marked). -/
def exEmpty : MySQLExplainJSON := ⟨mkBlockIn none none⟩

/-- A GROUP BY stage wrapping a table (C1's counterexample: the group node
gets an incoming edge but an empty `children` list). -/
def exGroup : MySQLExplainJSON :=
  ⟨.mk none none none
    (some (.mk none none none (some (mkTableIn "t" none none none)) none none))
    none none none none none none none⟩

/-- An ORDER BY stage wrapping a table (C3's counterexample: the producer
table is laid out below the consumer sort node). -/
def exSortTable : MySQLExplainJSON :=
  ⟨.mk none none
    (some (.mk true none none (some (mkTableIn "products" none (some 500) none)) none none))
    none none none none none none none none⟩

/-- Two nested-loop tables: the first with no row estimates, the second
producing 5 rows (C4's counterexample: the code's fold skips the leading
zero estimate instead of multiplying by it). -/
def exC4Items : List NestedLoopItem :=
  [.mk (mkTableIn "a" (some "25.00") none none),
   .mk (mkTableIn "b" (some "25.00") none (some 5))]

/-- A cheap table joined with an expensive one (the critical-path example). -/
def exCP : MySQLExplainJSON :=
  ⟨mkBlockIn none (some
    [.mk (mkTableIn "cheap_table" (some "1.00") (some 1) none),
     .mk (mkTableIn "expensive_table" (some "500.00") (some 100000) none)])⟩

/-- A table with a materialized single-table subquery, then a subquery
block holding a three-table join (C9's counterexample: the second root's
children block spills left under the first root's subtree). -/
def exC9 : MySQLExplainJSON :=
  ⟨.mk
    (some (.mk "outer_t" "ALL" none none none none none none none none none none none
      (some (mkBlockIn (some (mkTableIn "inner_t" none none none)) none))))
    none none none none none
    (some [mkBlockIn none (some
      [.mk (mkTableIn "x" none none none),
       .mk (mkTableIn "y" none none none),
       .mk (mkTableIn "z" none none none)])])
    none none none none⟩

/-- A JSON value that has the `query_block` field, holding `null` (C6's
counterexample). -/
def exNullQB : JValue := .obj [("query_block", JValue.null)]

/-! ### The parse invariant

Every parse function establishes `PInv c parentId r cEnd`: ids are fresh,
in `(c, cEnd]` and distinct; every edge points from a node of the result
to an earlier node of the result or to the attachment point; each node
sources at most one edge; `children` lists only reference later nodes of
the result; nothing is marked; and stage nodes (group, distinct, union,
buffer) have empty `children` lists. -/

structure PInv (c : ℕ) (parentId : Option ℕ) (r : PR) (cEnd : ℕ) : Prop where
  counter_le : c ≤ cEnd
  id_range : ∀ n ∈ r.nodes, c < n.id ∧ n.id ≤ cEnd
  ids_nodup : r.ids.Nodup
  edge_src_mem : ∀ e ∈ r.edges, e.source ∈ r.ids
  edge_tgt_mem : ∀ e ∈ r.edges, e.target ∈ r.ids ∨ parentId = some e.target
  edge_lt : ∀ e ∈ r.edges, e.target < e.source
  src_nodup : (r.edges.map (·.source)).Nodup
  child_mem : ∀ n ∈ r.nodes, ∀ i ∈ n.children, i ∈ r.ids
  child_gt : ∀ n ∈ r.nodes, ∀ i ∈ n.children, n.id < i
  unmarked : ∀ n ∈ r.nodes, n.isCriticalPath = false
  stage_children_empty : ∀ n ∈ r.nodes,
    (n.type = NodeType.group ∨ n.type = NodeType.distinct ∨
     n.type = NodeType.union ∨ n.type = NodeType.buffer) → n.children = []

/-- The hypothesis each parse call maintains about its attachment point:
it names an already allocated id. -/
def ParentOK (parentId : Option ℕ) (c : ℕ) : Prop :=
  ∀ q, parentId = some q → q ≤ c

/-- The invariant statement for every parse function whose input has
size at most `N`; proved for every `N` by strong induction. -/
def ParseInvAt (N : ℕ) : Prop :=
  (∀ (t : TableInfo) (p : Option ℕ) (c : ℕ), sizeOf t ≤ N → ParentOK p c →
    PInv c p (parseTable t p c).1 (parseTable t p c).2) ∧
  (∀ (l : List NestedLoopItem) (p : Option ℕ) (c : ℕ), sizeOf l ≤ N → ParentOK p c →
    PInv c p (parseNLItems l p c).1 (parseNLItems l p c).2) ∧
  (∀ (l : List NestedLoopItem) (p : Option ℕ) (c : ℕ), sizeOf l ≤ N → ParentOK p c →
    PInv c p (parseNestedLoop l p c).1 (parseNestedLoop l p c).2) ∧
  (∀ (o : Option (List NestedLoopItem)) (p : Option ℕ) (c : ℕ), sizeOf o ≤ N → ParentOK p c →
    PInv c p (stepNestedLoop o p c).1 (stepNestedLoop o p c).2) ∧
  (∀ (o : Option TableInfo) (p : Option ℕ) (c : ℕ), sizeOf o ≤ N → ParentOK p c →
    PInv c p (stepTable o p c).1 (stepTable o p c).2) ∧
  (∀ (o : Option GroupingOperation) (p : Option ℕ) (c : ℕ), sizeOf o ≤ N → ParentOK p c →
    PInv c p (stepGrouping o p c).1 (stepGrouping o p c).2) ∧
  (∀ (o : Option BufferResult) (p : Option ℕ) (c : ℕ), sizeOf o ≤ N → ParentOK p c →
    PInv c p (stepBuffer o p c).1 (stepBuffer o p c).2) ∧
  (∀ (o : Option QueryBlock) (p : Option ℕ) (c : ℕ), sizeOf o ≤ N → ParentOK p c →
    PInv c p (stepQueryBlock o p c).1 (stepQueryBlock o p c).2) ∧
  (∀ (l : List QueryBlock) (p : Option ℕ) (c : ℕ), sizeOf l ≤ N → ParentOK p c →
    PInv c p (parseSubqueryList l p c).1 (parseSubqueryList l p c).2) ∧
  (∀ (o : Option (List QueryBlock)) (p : Option ℕ) (c : ℕ), sizeOf o ≤ N → ParentOK p c →
    PInv c p (stepSubqueries o p c).1 (stepSubqueries o p c).2) ∧
  (∀ (l : List QueryBlock) (j : ℕ) (c : ℕ), sizeOf l ≤ N → j ≤ c →
    PInv c (some j) (parseUnionSpecs l j c).1 (parseUnionSpecs l j c).2) ∧
  (∀ (g : GroupingOperation) (p : Option ℕ) (c : ℕ), sizeOf g ≤ N → ParentOK p c →
    PInv c p (parseGroupingOperation g p c).1 (parseGroupingOperation g p c).2) ∧
  (∀ (b : BufferResult) (p : Option ℕ) (c : ℕ), sizeOf b ≤ N → ParentOK p c →
    PInv c p (parseBufferResult b p c).1 (parseBufferResult b p c).2) ∧
  (∀ (block : QueryBlock) (p : Option ℕ) (bt : NodeType) (c : ℕ), sizeOf block ≤ N →
    ParentOK p c →
    PInv c p (parseQueryBlock block p bt c).1 (parseQueryBlock block p bt c).2)

/-! ## Claim C5 — cost extraction on a non-numeric string -/

/-- C5 counterexample: with `query_cost` present but non-numeric,
`parseCost` returns NaN, which is not the zero the claim promises (the
statistic is not "zeroed" — NaN propagates into the node's cost). -/
theorem parseCost_abc_is_nan :
    parseCost (some { query_cost := some "abc" }) = JSNum.nan ∧
    JSNum.nan ≠ JSNum.num 0 := by
  constructor
  · decide
  · decide

/-- C5 (amended): `parseCost` never throws, but a present, non-empty cost
string that `parseFloat` cannot read yields NaN rather than 0: whenever
the field precedence selects a string `s` with `parseFloat s = NaN`, the
extracted cost is NaN. -/
theorem parseCost_nan_on_corrupt_field (ci : CostInfo) (s : String)
    (hsel : jsOrStr (jsOrStr ci.query_cost ci.read_cost) ci.prefix_cost = some s)
    (hne : s ≠ "") (hnan : jsParseFloat s = JSNum.nan) :
    parseCost (some ci) = JSNum.nan := by
  have hdef : parseCost (some ci) =
      (match jsOrStr (jsOrStr ci.query_cost ci.read_cost) ci.prefix_cost with
        | some s => if s = "" then JSNum.num 0 else jsParseFloat s
        | none => JSNum.num 0) := rfl
  rw [hdef, hsel]
  simp [hne, hnan]

/-- C5 witness: the hypotheses of `parseCost_nan_on_corrupt_field` hold at
the cost record `{ query_cost: "abc" }`, and its conclusion follows. -/
theorem parseCost_nan_on_corrupt_field_witness :
    jsOrStr (jsOrStr (some "abc") none) none = some "abc" ∧
    "abc" ≠ "" ∧ jsParseFloat "abc" = JSNum.nan ∧
    parseCost (some { query_cost := some "abc" }) = JSNum.nan := by
  refine ⟨by decide, by decide, by decide, ?_⟩
  exact parseCost_nan_on_corrupt_field { query_cost := some "abc" } "abc"
    (by decide) (by decide) (by decide)

/-! ## Claim C6 — validation of the input blob -/

/-- C6 counterexample: `{"query_block": null}` parses as JSON and has the
`query_block` field, yet validation rejects it, so "valid iff the text
parses and the structure has a `query_block` field" fails. -/
theorem validate_nullQB_rejected :
    (validateExplainJSON (some exNullQB)).valid = false ∧
    (getField exNullQB "query_block").isSome = true := by
  constructor
  · rfl
  · rfl

/-- C6 (amended): validation accepts exactly the inputs that parse to a
value whose `query_block` property is truthy (not merely present);
rejection carries no data, the malformed-input message covers both a
parse failure and a parsed `null` (whose property access throws inside
the same try block), and the missing-field message covers every other
parsed value with a falsy `query_block`. -/
theorem validateExplainJSON_characterization (parsed : Option JValue) :
    ((validateExplainJSON parsed).valid = true ↔
      ∃ v, parsed = some v ∧ jsTruthy (getField v "query_block") = true) ∧
    ((validateExplainJSON parsed).valid = false →
      (validateExplainJSON parsed).data = none) ∧
    ((validateExplainJSON parsed).error = some .invalidJSON ↔
      parsed = none ∨ parsed = some JValue.null) ∧
    ((validateExplainJSON parsed).error = some .missingQueryBlock ↔
      ∃ v, parsed = some v ∧ v ≠ JValue.null ∧
        jsTruthy (getField v "query_block") = false) := by
  match parsed with
  | none => simp [validateExplainJSON]
  | some .null => simp [validateExplainJSON, jsTruthy, getField]
  | some (.bool b) =>
    simp [validateExplainJSON, jsTruthy, getField]
  | some (.num q) =>
    simp [validateExplainJSON, jsTruthy, getField]
  | some (.str s) =>
    simp [validateExplainJSON, jsTruthy, getField]
  | some (.arr xs) =>
    simp [validateExplainJSON, jsTruthy, getField]
  | some (.obj fields) =>
    by_cases h : jsTruthy (getField (JValue.obj fields) "query_block") = true
    · simp [validateExplainJSON, h]
    · simp only [Bool.not_eq_true] at h
      simp [validateExplainJSON, h]

/-! ## Claim C7 — determinism across successive parses -/

/-- C7 counterexample: parsing the same input twice in succession (the
second call starting from the counter the first left behind) yields the
same node ids both times — the ids do not differ between parses, because
the counter is reset to 0 at the start of every call. -/
theorem reparse_same_ids :
    (parseExplainJSON exSimple 0).1.planNodes.map (·.id) = [1] ∧
    (parseExplainJSON exSimple (parseExplainJSON exSimple 0).2).1.planNodes.map (·.id)
      = [1] := by
  constructor
  · decide
  · decide

/-- C7 (amended): `parseExplainJSON` ignores the incoming counter state —
it resets the monotonic counter to 0 on entry — so any two invocations on
the same input produce identical results, absolute node ids included (in
particular the graphs are structurally identical and ids are assigned in
the same discovery order, but ids ARE reused across parses). -/
theorem parseExplainJSON_counter_independent (json : MySQLExplainJSON) (c1 c2 : ℕ) :
    parseExplainJSON json c1 = parseExplainJSON json c2 := rfl

/-! ## Claims C10 and C4 — row estimates and the join node -/

lemma jsOrRows_examined_first (a b : Option ℕ) :
    jsOrRows a b =
      (match a with
        | some n => if n ≠ 0 then n else
            (match b with
              | some m => if m ≠ 0 then m else 0
              | none => 0)
        | none =>
          match b with
          | some m => if m ≠ 0 then m else 0
          | none => 0) := by
  match a, b with
  | some n, some m =>
    by_cases hn : n = 0 <;> by_cases hm : m = 0 <;> simp [jsOrRows, hn, hm]
  | some n, none => by_cases hn : n = 0 <;> simp [jsOrRows, hn]
  | none, some m => by_cases hm : m = 0 <;> simp [jsOrRows, hm]
  | none, none => simp [jsOrRows]

/-- The head of a `parseTable` result: always the table node itself, with
the examined-first row estimate and the extracted cost. -/
lemma parseTable_head (t : TableInfo) (p : Option ℕ) (c : ℕ) :
    ∃ n rest, (parseTable t p c).1.nodes = n :: rest ∧ n.id = c + 1 ∧
      n.type = NodeType.table ∧
      n.rows = jsOrRows t.rows_examined_per_scan t.rows_produced_per_join ∧
      n.cost = parseCost t.cost_info ∧ n.children = (rest.map (·.id)) := by
  match t with
  | .mk nm aty k ukp cond ci res rpj ui ut uf uic msg mat =>
    match mat with
    | some qb =>
      refine ⟨_, _, rfl, rfl, rfl, ?_, rfl, ?_⟩ <;>
        simp [TableInfo.rows_examined_per_scan, TableInfo.rows_produced_per_join,
          TableInfo.cost_info, PR.ids]
    | none =>
      refine ⟨_, _, rfl, rfl, rfl, ?_, rfl, ?_⟩ <;>
        simp [TableInfo.rows_examined_per_scan, TableInfo.rows_produced_per_join,
          TableInfo.cost_info, PR.ids, PR.empty]

lemma itemRowEstimate_eq_specItemRows (t : TableInfo) :
    itemRowEstimate t = specItemRows t := by
  rw [itemRowEstimate, jsOrRows_examined_first]
  rfl

/-- C10: the emitted table node's `rows` takes the examined-row estimate
when present and nonzero, else the produced-row estimate when present and
nonzero, else 0; the join fold's per-item factor (`itemRowEstimate`) uses
the opposite precedence, preferring the produced-row estimate. -/
theorem tableRows_examined_first_joinRows_produced_first
    (t : TableInfo) (p : Option ℕ) (c : ℕ) :
    (∃ n rest, (parseTable t p c).1.nodes = n :: rest ∧ n.rows = specTableRows t) ∧
    itemRowEstimate t = specItemRows t := by
  constructor
  · obtain ⟨n, rest, hn, _, _, hrows, _, _⟩ := parseTable_head t p c
    refine ⟨n, rest, hn, ?_⟩
    rw [hrows, jsOrRows_examined_first]
    rfl
  · exact itemRowEstimate_eq_specItemRows t

lemma jsAdd_zero_left (a : JSNum) : jsAdd (.num 0) a = a := by
  cases a <;> simp [jsAdd]

lemma jsAdd_zero_right (a : JSNum) : jsAdd a (.num 0) = a := by
  cases a <;> simp [jsAdd]

lemma jsAdd_assoc (a b d : JSNum) : jsAdd (jsAdd a b) d = jsAdd a (jsAdd b d) := by
  cases a <;> cases b <;> cases d <;> simp [jsAdd, add_assoc]

lemma foldl_jsAdd_acc (f : NestedLoopItem → JSNum) (l : List NestedLoopItem) (a : JSNum) :
    l.foldl (fun s x => jsAdd s (f x)) a =
      jsAdd a (l.foldr (fun x acc => jsAdd (f x) acc) (.num 0)) := by
  induction l generalizing a with
  | nil => simp [jsAdd_zero_right]
  | cons hd tl ih =>
    simp only [List.foldl_cons, List.foldr_cons]
    rw [ih, jsAdd_assoc]

lemma joinCostFold_eq_specCostSum (items : List NestedLoopItem) :
    joinCostFold items = specCostSum items := by
  unfold joinCostFold specCostSum
  rw [foldl_jsAdd_acc, jsAdd_zero_left]

lemma joinRowsFold_eq_amended (items : List NestedLoopItem) :
    joinRowsFold items = specAmendedJoinRows items := by
  unfold joinRowsFold specAmendedJoinRows
  simp only [itemRowEstimate_eq_specItemRows]

/-- A table record without a materialized subquery parses to exactly its
own node and its optional parent edge, advancing the counter by one. -/
lemma parseTable_no_subquery (t : TableInfo) (p : Option ℕ) (c : ℕ)
    (h : t.materialized_from_subquery.isNone = true) :
    ∃ n, parseTable t p c = (⟨[n], parentEdge (c + 1) p⟩, c + 1) ∧
      n.id = c + 1 ∧ n.type = NodeType.table ∧ n.children = [] := by
  match t with
  | .mk nm aty k ukp cond ci res rpj ui ut uf uic msg mat =>
    match mat, h with
    | none, _ =>
      match p with
      | some q => exact ⟨_, rfl, rfl, rfl, rfl⟩
      | none => exact ⟨_, rfl, rfl, rfl, rfl⟩

/-- The nested loop item loop over subquery-free tables: one table node
per item, each with an edge to the join node, one counter step per item. -/
lemma parseNLItems_tables (items : List NestedLoopItem) (j c : ℕ)
    (hns : ∀ item ∈ items, (NestedLoopItem.table item).materialized_from_subquery.isNone = true) :
    ∃ ns, parseNLItems items (some j) c =
        (⟨ns, ns.map (fun n => EdgeRec.mk n.id j)⟩, c + items.length) ∧
      ns.map (·.type) = items.map (fun _ => NodeType.table) := by
  induction items generalizing c with
  | nil => exact ⟨[], rfl, rfl⟩
  | cons hd tl ih =>
    match hd with
    | .mk t =>
      obtain ⟨n1, hpt, hid1, hty1, _⟩ :=
        parseTable_no_subquery t (some j) c (hns (.mk t) (List.mem_cons_self _ _))
      obtain ⟨ns2, hrest, hty2⟩ :=
        ih (c + 1) (fun it hit => hns it (List.mem_cons_of_mem _ hit))
      refine ⟨n1 :: ns2, ?_, by simp [hty1, hty2]⟩
      simp only [parseNLItems, hpt, hrest, PR.append]
      refine Prod.ext ?_ ?_
      · simp [parentEdge, hid1]
      · simp
        omega

/-- C4 (amended): for a subquery-free nested-loop list of N ≥ 2 entries,
exactly one `join` node is emitted (heading the result), its cost is the
sum of the entries' extracted costs, each entry becomes a `table` node
with an edge to the join node, and the join's row estimate is the
zero-skipping fold of the per-table produced-first estimates (not their
plain product); a single-entry list is parsed as the bare table attached
to the outer attachment point. -/
theorem parseNestedLoop_join_structure (items : List NestedLoopItem)
    (parentId : Option ℕ) (c : ℕ) (h2 : 2 ≤ items.length)
    (hns : ∀ item ∈ items, (NestedLoopItem.table item).materialized_from_subquery.isNone = true) :
    (∀ single pid c0, parseNestedLoop [single] pid c0 =
      parseTable (NestedLoopItem.table single) pid c0) ∧
    ∃ jn ns,
      (parseNestedLoop items parentId c).1.nodes = jn :: ns ∧
      jn.type = NodeType.join ∧ jn.id = c + 1 ∧
      jn.cost = specCostSum items ∧
      jn.rows = specAmendedJoinRows items ∧
      jn.children = ns.map (·.id) ∧
      ns.map (·.type) = items.map (fun _ => NodeType.table) ∧
      ((jn :: ns).filter (fun n => n.type = NodeType.join)).length = 1 ∧
      (parseNestedLoop items parentId c).1.edges =
        parentEdge (c + 1) parentId ++ ns.map (fun n => EdgeRec.mk n.id (c + 1)) := by
  constructor
  · intro single pid c0
    match single with
    | .mk t => rfl
  · match items, h2 with
    | .mk t :: next :: rest, _ =>
      obtain ⟨n1, hpt, hid1, hty1, _⟩ :=
        parseTable_no_subquery t (some (c + 1)) (c + 1)
          (hns (.mk t) (List.mem_cons_self _ _))
      obtain ⟨ns2, hrest, hty2⟩ :=
        parseNLItems_tables (next :: rest) (c + 1) (c + 2)
          (fun it hit => hns it (List.mem_cons_of_mem _ hit))
      refine ⟨{ id := c + 1, type := NodeType.join, label := "Nested Loop Join", cost := joinCostFold (NestedLoopItem.mk t :: next :: rest), rows := joinRowsFold (NestedLoopItem.mk t :: next :: rest), extra := [], children := List.map (fun n => PlanNode.id n) (n1 :: ns2) },
        n1 :: ns2, ?_, rfl, rfl, ?_, ?_, rfl, ?_, ?_, ?_⟩
      · simp only [parseNestedLoop, hpt, hrest]
        simp [PR.append, PR.ids]
      · exact joinCostFold_eq_specCostSum _
      · exact joinRowsFold_eq_amended _
      · simp [hty1, hty2]
      · have hno : ∀ n ∈ n1 :: ns2, n.type ≠ NodeType.join := by
          intro n hn
          have htyn : n.type = NodeType.table := by
            rcases List.mem_cons.mp hn with h1 | h2
            · rw [h1]; exact hty1
            · have hmem := List.mem_map_of_mem (fun x => PlanNode.type x) h2
              rw [hty2] at hmem
              rcases List.mem_map.mp hmem with ⟨x, _, hx⟩
              exact hx.symm
          rw [htyn]
          intro hcon
          cases hcon
        have hfil : (n1 :: ns2).filter (fun n => n.type = NodeType.join) = [] := by
          apply List.filter_eq_nil_iff.mpr
          intro n hn
          simpa using hno n hn
        simp [List.filter_cons, hfil]
      · simp only [parseNestedLoop, hpt, hrest, PR.append]
        simp [parentEdge, hid1]

/-- C4 counterexample: on two tables whose estimates are 0 (both fields
absent) and 5, the emitted join node's row estimate is 5, while the
claimed plain product of the per-table estimates is 0. -/
theorem joinRows_differs_from_product :
    ((parseNestedLoop exC4Items none 0).1.nodes.map (fun n => (n.type, n.rows))).head?
      = some (NodeType.join, 5) ∧
    specRowProduct exC4Items = 0 ∧ (5 : ℕ) ≠ 0 := by
  refine ⟨by decide, by decide, by decide⟩

/-! ## Parse invariant lemmas -/

lemma PR.ids_append (a b : PR) : (a.append b).ids = a.ids ++ b.ids := by
  simp [PR.append, PR.ids]

lemma mem_ids_iff {r : PR} {i : ℕ} : i ∈ r.ids ↔ ∃ n ∈ r.nodes, n.id = i := by
  simp [PR.ids]

lemma PInv.empty (c : ℕ) (p : Option ℕ) : PInv c p PR.empty c where
  counter_le := le_refl c
  id_range := by intro n hn; simp [PR.empty] at hn
  ids_nodup := by simp [PR.empty, PR.ids]
  edge_src_mem := by intro e he; simp [PR.empty] at he
  edge_tgt_mem := by intro e he; simp [PR.empty] at he
  edge_lt := by intro e he; simp [PR.empty] at he
  src_nodup := by simp [PR.empty]
  child_mem := by intro n hn; simp [PR.empty] at hn
  child_gt := by intro n hn; simp [PR.empty] at hn
  unmarked := by intro n hn; simp [PR.empty] at hn
  stage_children_empty := by intro n hn; simp [PR.empty] at hn

lemma PInv.id_le_of_mem {c : ℕ} {p : Option ℕ} {r : PR} {cEnd : ℕ}
    (h : PInv c p r cEnd) {i : ℕ} (hi : i ∈ r.ids) : c < i ∧ i ≤ cEnd := by
  obtain ⟨n, hn, rfl⟩ := mem_ids_iff.mp hi
  exact h.id_range n hn

lemma PInv.append {c : ℕ} {p : Option ℕ} {r1 r2 : PR} {c1 c2 : ℕ}
    (h1 : PInv c p r1 c1) (h2 : PInv c1 p r2 c2) :
    PInv c p (r1.append r2) c2 where
  counter_le := le_trans h1.counter_le h2.counter_le
  id_range := by
    intro n hn
    rcases List.mem_append.mp hn with hn1 | hn2
    · obtain ⟨ha, hb⟩ := h1.id_range n hn1
      exact ⟨ha, le_trans hb h2.counter_le⟩
    · obtain ⟨ha, hb⟩ := h2.id_range n hn2
      exact ⟨lt_of_le_of_lt h1.counter_le ha, hb⟩
  ids_nodup := by
    rw [PR.ids_append]
    refine List.Nodup.append h1.ids_nodup h2.ids_nodup ?_
    intro i hi1 hi2
    have ha := (h1.id_le_of_mem hi1).2
    have hb := (h2.id_le_of_mem hi2).1
    omega
  edge_src_mem := by
    intro e he
    rw [PR.ids_append]
    rcases List.mem_append.mp he with he1 | he2
    · exact List.mem_append_left _ (h1.edge_src_mem e he1)
    · exact List.mem_append_right _ (h2.edge_src_mem e he2)
  edge_tgt_mem := by
    intro e he
    rw [PR.ids_append]
    rcases List.mem_append.mp he with he1 | he2
    · rcases h1.edge_tgt_mem e he1 with ht | ht
      · exact Or.inl (List.mem_append_left _ ht)
      · exact Or.inr ht
    · rcases h2.edge_tgt_mem e he2 with ht | ht
      · exact Or.inl (List.mem_append_right _ ht)
      · exact Or.inr ht
  edge_lt := by
    intro e he
    rcases List.mem_append.mp he with he1 | he2
    · exact h1.edge_lt e he1
    · exact h2.edge_lt e he2
  src_nodup := by
    have : (r1.append r2).edges = r1.edges ++ r2.edges := rfl
    rw [this, List.map_append]
    refine List.Nodup.append h1.src_nodup h2.src_nodup ?_
    intro i hi1 hi2
    obtain ⟨e1, he1, rfl⟩ := List.mem_map.mp hi1
    obtain ⟨e2, he2, hsc⟩ := List.mem_map.mp hi2
    have ha := (h1.id_le_of_mem (h1.edge_src_mem e1 he1)).2
    have hb := (h2.id_le_of_mem (h2.edge_src_mem e2 he2)).1
    omega
  child_mem := by
    intro n hn i hi
    rw [PR.ids_append]
    rcases List.mem_append.mp hn with hn1 | hn2
    · exact List.mem_append_left _ (h1.child_mem n hn1 i hi)
    · exact List.mem_append_right _ (h2.child_mem n hn2 i hi)
  child_gt := by
    intro n hn i hi
    rcases List.mem_append.mp hn with hn1 | hn2
    · exact h1.child_gt n hn1 i hi
    · exact h2.child_gt n hn2 i hi
  unmarked := by
    intro n hn
    rcases List.mem_append.mp hn with hn1 | hn2
    · exact h1.unmarked n hn1
    · exact h2.unmarked n hn2
  stage_children_empty := by
    intro n hn ht
    rcases List.mem_append.mp hn with hn1 | hn2
    · exact h1.stage_children_empty n hn1 ht
    · exact h2.stage_children_empty n hn2 ht

/-- One freshly created node over a sub-result parsed with the node as
attachment point. -/
lemma PInv.node {c : ℕ} {parentId : Option ℕ} {rsub : PR} {cEnd : ℕ} (n : PlanNode)
    (hp : ParentOK parentId c)
    (hsub : PInv (c + 1) (some (c + 1)) rsub cEnd)
    (hid : n.id = c + 1)
    (hch : ∀ i ∈ n.children, i ∈ rsub.ids)
    (hum : n.isCriticalPath = false)
    (hst : (n.type = NodeType.group ∨ n.type = NodeType.distinct ∨
      n.type = NodeType.union ∨ n.type = NodeType.buffer) → n.children = []) :
    PInv c parentId ⟨n :: rsub.nodes, parentEdge n.id parentId ++ rsub.edges⟩ cEnd where
  counter_le := le_trans (Nat.le_succ c) hsub.counter_le
  id_range := by
    intro m hm
    rcases List.mem_cons.mp hm with rfl | hm2
    · rw [hid]
      exact ⟨Nat.lt_succ_self c, hsub.counter_le⟩
    · obtain ⟨ha, hb⟩ := hsub.id_range m hm2
      exact ⟨lt_trans (Nat.lt_succ_self c) ha, hb⟩
  ids_nodup := by
    have hids : (PR.mk (n :: rsub.nodes) (parentEdge n.id parentId ++ rsub.edges)).ids
        = n.id :: rsub.ids := by simp [PR.ids]
    rw [hids]
    refine List.nodup_cons.mpr ⟨?_, hsub.ids_nodup⟩
    intro hmem
    have := (hsub.id_le_of_mem hmem).1
    omega
  edge_src_mem := by
    intro e he
    have hids : (PR.mk (n :: rsub.nodes) (parentEdge n.id parentId ++ rsub.edges)).ids
        = n.id :: rsub.ids := by simp [PR.ids]
    rw [hids]
    rcases List.mem_append.mp he with hpe | hse
    · match parentId, hpe with
      | some q, hpe =>
        simp only [parentEdge, List.mem_singleton] at hpe
        subst hpe
        exact List.mem_cons_self _ _
    · exact List.mem_cons_of_mem _ (hsub.edge_src_mem e hse)
  edge_tgt_mem := by
    intro e he
    have hids : (PR.mk (n :: rsub.nodes) (parentEdge n.id parentId ++ rsub.edges)).ids
        = n.id :: rsub.ids := by simp [PR.ids]
    rw [hids]
    rcases List.mem_append.mp he with hpe | hse
    · match parentId, hpe with
      | some q, hpe =>
        simp only [parentEdge, List.mem_singleton] at hpe
        subst hpe
        exact Or.inr rfl
    · rcases hsub.edge_tgt_mem e hse with ht | ht
      · exact Or.inl (List.mem_cons_of_mem _ ht)
      · injection ht with ht2
        refine Or.inl ?_
        rw [← ht2, ← hid]
        exact List.mem_cons_self _ _
  edge_lt := by
    intro e he
    rcases List.mem_append.mp he with hpe | hse
    · match parentId, hpe with
      | some q, hpe =>
        have hq := hp q rfl
        simp only [parentEdge, List.mem_singleton] at hpe
        subst hpe
        simp only [hid]
        omega
    · exact hsub.edge_lt e hse
  src_nodup := by
    rw [List.map_append]
    refine List.Nodup.append ?_ hsub.src_nodup ?_
    · match parentId with
      | some q => simp [parentEdge]
      | none => simp [parentEdge]
    · intro i hi1 hi2
      match parentId, hi1 with
      | some q, hi1 =>
        simp only [parentEdge, List.map_cons, List.map_nil, List.mem_singleton] at hi1
        subst hi1
        obtain ⟨e2, he2, hsc⟩ := List.mem_map.mp hi2
        have hb := (hsub.id_le_of_mem (hsub.edge_src_mem e2 he2)).1
        rw [hsc, hid] at hb
        omega
  child_mem := by
    intro m hm i hi
    have hids : (PR.mk (n :: rsub.nodes) (parentEdge n.id parentId ++ rsub.edges)).ids
        = n.id :: rsub.ids := by simp [PR.ids]
    rw [hids]
    rcases List.mem_cons.mp hm with rfl | hm2
    · exact List.mem_cons_of_mem _ (hch i hi)
    · exact List.mem_cons_of_mem _ (hsub.child_mem m hm2 i hi)
  child_gt := by
    intro m hm i hi
    rcases List.mem_cons.mp hm with rfl | hm2
    · have := (hsub.id_le_of_mem (hch i hi)).1
      omega
    · exact hsub.child_gt m hm2 i hi
  unmarked := by
    intro m hm
    rcases List.mem_cons.mp hm with rfl | hm2
    · exact hum
    · exact hsub.unmarked m hm2
  stage_children_empty := by
    intro m hm ht
    rcases List.mem_cons.mp hm with rfl | hm2
    · exact hst ht
    · exact hsub.stage_children_empty m hm2 ht

lemma PInv.cast {c : ℕ} {p : Option ℕ} {r r2 : PR} {cEnd : ℕ}
    (h : PInv c p r cEnd) (hr : r = r2) : PInv c p r2 cEnd := hr ▸ h

lemma ParentOK.mono {p : Option ℕ} {c c2 : ℕ} (h : ParentOK p c) (hc : c ≤ c2) :
    ParentOK p c2 := fun q hq => le_trans (h q hq) hc

lemma ParentOK.some {j c : ℕ} (h : j ≤ c) : ParentOK (some j) c :=
  fun q hq => Option.some.inj hq ▸ h

lemma ParentOK.none_ok (c : ℕ) : ParentOK none c := fun q hq => by cases hq

/-- The message fallback preserves the invariant. -/
lemma stepMessage_inv {c : ℕ} {p : Option ℕ} {combined : PR} {c6 : ℕ}
    (msg : Option String) (bt : NodeType)
    (hcomb : PInv c p combined c6) (hp : ParentOK p c) :
    PInv c p (stepMessage msg bt p combined c6).1 (stepMessage msg bt p combined c6).2 := by
  match msg with
  | none => exact hcomb
  | some m =>
    by_cases hcond : m ≠ "" ∧ combined.nodes = []
    · have hnode := @PInv.node c6 p PR.empty (c6 + 1)
        { id := c6 + 1, type := bt, label := m, cost := .num 0, rows := 0,
          extra := [], children := [] }
        (hp.mono hcomb.counter_le) (PInv.empty (c6 + 1) (some (c6 + 1))) rfl
        (by intro i hi; simp at hi) rfl (fun _ => rfl)
      have hone : PInv c6 p (PR.mk
          [{ id := c6 + 1, type := bt, label := m, cost := .num 0, rows := 0,
             extra := [], children := [] }] (parentEdge (c6 + 1) p)) (c6 + 1) := by
        refine PInv.cast hnode ?_
        simp [PR.empty]
      have happ := hcomb.append hone
      have hdef : stepMessage (some m) bt p combined c6 =
          (⟨combined.nodes ++
              [{ id := c6 + 1, type := bt, label := m, cost := .num 0, rows := 0,
                 extra := [], children := [] }],
            combined.edges ++ parentEdge (c6 + 1) p⟩, c6 + 1) := by
        simp only [stepMessage, if_pos hcond]
      rw [hdef]
      exact happ
    · have hdef : stepMessage (some m) bt p combined c6 = (combined, c6) := by
        simp only [stepMessage, if_neg hcond]
      rw [hdef]
      exact hcomb

/-! ## The parse invariant, by strong induction on input size -/

theorem parse_inv_at (N : ℕ) : ParseInvAt N := by
  induction N using Nat.strong_induction_on with
  | _ N IH =>
    have IHtab := fun M (hM : M < N) => (IH M hM).1
    have IHnli := fun M (hM : M < N) => (IH M hM).2.1
    have IHnl := fun M (hM : M < N) => (IH M hM).2.2.1
    have IHsnl := fun M (hM : M < N) => (IH M hM).2.2.2.1
    have IHst := fun M (hM : M < N) => (IH M hM).2.2.2.2.1
    have IHsg := fun M (hM : M < N) => (IH M hM).2.2.2.2.2.1
    have IHsb := fun M (hM : M < N) => (IH M hM).2.2.2.2.2.2.1
    have IHsqb := fun M (hM : M < N) => (IH M hM).2.2.2.2.2.2.2.1
    have IHsql := fun M (hM : M < N) => (IH M hM).2.2.2.2.2.2.2.2.1
    have IHssub := fun M (hM : M < N) => (IH M hM).2.2.2.2.2.2.2.2.2.1
    have IHusp := fun M (hM : M < N) => (IH M hM).2.2.2.2.2.2.2.2.2.2.1
    have IHgrp := fun M (hM : M < N) => (IH M hM).2.2.2.2.2.2.2.2.2.2.2.1
    have IHbuf := fun M (hM : M < N) => (IH M hM).2.2.2.2.2.2.2.2.2.2.2.2.1
    have IHqb := fun M (hM : M < N) => (IH M hM).2.2.2.2.2.2.2.2.2.2.2.2.2
    refine ⟨?_, ?_, ?_, ?_, ?_, ?_, ?_, ?_, ?_, ?_, ?_, ?_, ?_, ?_⟩
    -- parseTable
    · intro t p c hsz hp
      match t, hsz with
      | .mk nm aty k ukp cond ci res rpj ui ut uf uic msg mat, hsz =>
        match mat, hsz with
        | some qb, hsz =>
          have hlt : sizeOf qb < N := by
            have h0 : sizeOf qb < sizeOf
                (TableInfo.mk nm aty k ukp cond ci res rpj ui ut uf uic msg (some qb)) := by simp <;> omega
            omega
          have hqb := IHqb (sizeOf qb) hlt qb (some (c + 1)) NodeType.subquery (c + 1)
            (le_refl _) (ParentOK.some (le_refl _))
          exact PInv.node _ hp hqb rfl (fun i hi => hi) rfl
            (by intro hcon; simp at hcon)
        | none, hsz =>
          exact PInv.node _ hp (PInv.empty (c + 1) (some (c + 1))) rfl (fun i hi => hi) rfl
            (by intro hcon; simp at hcon)
    -- parseNLItems
    · intro l p c hsz hp
      match l, hsz with
      | [], _ => exact PInv.empty c p
      | .mk t :: rest, hsz =>
        have hlt1 : sizeOf t < N := by
          have h0 : sizeOf t < sizeOf (NestedLoopItem.mk t :: rest) := by simp <;> omega
          omega
        have hlt2 : sizeOf rest < N := by
          have h0 : sizeOf rest < sizeOf (NestedLoopItem.mk t :: rest) := by simp <;> omega
          omega
        have h1 := IHtab _ hlt1 t p c (le_refl _) hp
        have h2 := IHnli _ hlt2 rest p (parseTable t p c).2 (le_refl _)
          (hp.mono h1.counter_le)
        exact h1.append h2
    -- parseNestedLoop
    · intro l p c hsz hp
      match l, hsz with
      | [], _ => exact PInv.empty c p
      | [.mk t], hsz =>
        have hlt : sizeOf t < N := by
          have h0 : sizeOf t < sizeOf [NestedLoopItem.mk t] := by simp <;> omega
          omega
        exact IHtab _ hlt t p c (le_refl _) hp
      | .mk t :: next :: rest, hsz =>
        have hlt1 : sizeOf t < N := by
          have h0 : sizeOf t < sizeOf (NestedLoopItem.mk t :: next :: rest) := by simp <;> omega
          omega
        have hlt2 : sizeOf (next :: rest) < N := by
          have h0 : sizeOf (next :: rest) < sizeOf (NestedLoopItem.mk t :: next :: rest) := by simp <;> omega
          omega
        have h1 := IHtab _ hlt1 t (some (c + 1)) (c + 1) (le_refl _)
          (ParentOK.some (le_refl _))
        have h2 := IHnli _ hlt2 (next :: rest) (some (c + 1))
          (parseTable t (some (c + 1)) (c + 1)).2 (le_refl _)
          ((ParentOK.some (le_refl _)).mono h1.counter_le)
        exact PInv.node _ hp (h1.append h2) rfl (fun i hi => hi) rfl
          (by intro hcon; simp at hcon)
    -- stepNestedLoop
    · intro o p c hsz hp
      match o, hsz with
      | some items, hsz =>
        have hlt : sizeOf items < N := by
          have h0 : sizeOf items < sizeOf (some items) := by simp
          omega
        exact IHnl _ hlt items p c (le_refl _) hp
      | none, _ => exact PInv.empty c p
    -- stepTable
    · intro o p c hsz hp
      match o, hsz with
      | some t, hsz =>
        have hlt : sizeOf t < N := by
          have h0 : sizeOf t < sizeOf (some t) := by simp
          omega
        exact IHtab _ hlt t p c (le_refl _) hp
      | none, _ => exact PInv.empty c p
    -- stepGrouping
    · intro o p c hsz hp
      match o, hsz with
      | some g, hsz =>
        have hlt : sizeOf g < N := by
          have h0 : sizeOf g < sizeOf (some g) := by simp
          omega
        exact IHgrp _ hlt g p c (le_refl _) hp
      | none, _ => exact PInv.empty c p
    -- stepBuffer
    · intro o p c hsz hp
      match o, hsz with
      | some b, hsz =>
        have hlt : sizeOf b < N := by
          have h0 : sizeOf b < sizeOf (some b) := by simp
          omega
        exact IHbuf _ hlt b p c (le_refl _) hp
      | none, _ => exact PInv.empty c p
    -- stepQueryBlock
    · intro o p c hsz hp
      match o, hsz with
      | some qb, hsz =>
        have hlt : sizeOf qb < N := by
          have h0 : sizeOf qb < sizeOf (some qb) := by simp
          omega
        exact IHqb _ hlt qb p NodeType.select c (le_refl _) hp
      | none, _ => exact PInv.empty c p
    -- parseSubqueryList
    · intro l p c hsz hp
      match l, hsz with
      | [], _ => exact PInv.empty c p
      | qb :: rest, hsz =>
        have hlt1 : sizeOf qb < N := by
          have h0 : sizeOf qb < sizeOf (qb :: rest) := by simp <;> omega
          omega
        have hlt2 : sizeOf rest < N := by
          have h0 : sizeOf rest < sizeOf (qb :: rest) := by simp <;> omega
          omega
        have h1 := IHqb _ hlt1 qb p NodeType.subquery c (le_refl _) hp
        have h2 := IHsql _ hlt2 rest p (parseQueryBlock qb p NodeType.subquery c).2
          (le_refl _) (hp.mono h1.counter_le)
        exact h1.append h2
    -- stepSubqueries
    · intro o p c hsz hp
      match o, hsz with
      | some subs, hsz =>
        have hlt : sizeOf subs < N := by
          have h0 : sizeOf subs < sizeOf (some subs) := by simp
          omega
        exact IHsql _ hlt subs p c (le_refl _) hp
      | none, _ => exact PInv.empty c p
    -- parseUnionSpecs
    · intro l j c hsz hj
      match l, hsz with
      | [], _ => exact PInv.empty c (some j)
      | qb :: rest, hsz =>
        have hlt1 : sizeOf qb < N := by
          have h0 : sizeOf qb < sizeOf (qb :: rest) := by simp <;> omega
          omega
        have hlt2 : sizeOf rest < N := by
          have h0 : sizeOf rest < sizeOf (qb :: rest) := by simp <;> omega
          omega
        have h1 := IHqb _ hlt1 qb (some j) NodeType.select c (le_refl _) (ParentOK.some hj)
        have h2 := IHusp _ hlt2 rest j (parseQueryBlock qb (some j) NodeType.select c).2
          (le_refl _) (le_trans hj h1.counter_le)
        exact h1.append h2
    -- parseGroupingOperation
    · intro g p c hsz hp
      match g, hsz with
      | .mk uf utt ci otbl onl obr, hsz =>
        have hlt1 : sizeOf onl < N := by
          have h0 : sizeOf onl < sizeOf (GroupingOperation.mk uf utt ci otbl onl obr) := by simp <;> omega
          omega
        have hlt2 : sizeOf otbl < N := by
          have h0 : sizeOf otbl < sizeOf (GroupingOperation.mk uf utt ci otbl onl obr) := by simp <;> omega
          omega
        have hlt3 : sizeOf obr < N := by
          have h0 : sizeOf obr < sizeOf (GroupingOperation.mk uf utt ci otbl onl obr) := by simp <;> omega
          omega
        have h1 := IHsnl _ hlt1 onl (some (c + 1)) (c + 1) (le_refl _)
          (ParentOK.some (le_refl _))
        have h2 := IHst _ hlt2 otbl (some (c + 1))
          (stepNestedLoop onl (some (c + 1)) (c + 1)).2 (le_refl _)
          ((ParentOK.some (le_refl _)).mono h1.counter_le)
        have h3 := IHsb _ hlt3 obr (some (c + 1))
          (stepTable otbl (some (c + 1)) (stepNestedLoop onl (some (c + 1)) (c + 1)).2).2
          (le_refl _)
          ((ParentOK.some (le_refl _)).mono (le_trans h1.counter_le h2.counter_le))
        exact PInv.node _ hp ((h1.append h2).append h3) rfl
          (by intro i hi; simp at hi) rfl (fun _ => rfl)
    -- parseBufferResult
    · intro b p c hsz hp
      match b, hsz with
      | .mk utt otbl onl, hsz =>
        have hlt1 : sizeOf onl < N := by
          have h0 : sizeOf onl < sizeOf (BufferResult.mk utt otbl onl) := by simp <;> omega
          omega
        have hlt2 : sizeOf otbl < N := by
          have h0 : sizeOf otbl < sizeOf (BufferResult.mk utt otbl onl) := by simp <;> omega
          omega
        have h1 := IHsnl _ hlt1 onl (some (c + 1)) (c + 1) (le_refl _)
          (ParentOK.some (le_refl _))
        have h2 := IHst _ hlt2 otbl (some (c + 1))
          (stepNestedLoop onl (some (c + 1)) (c + 1)).2 (le_refl _)
          ((ParentOK.some (le_refl _)).mono h1.counter_le)
        exact PInv.node _ hp (h1.append h2) rfl
          (by intro i hi; simp at hi) rfl (fun _ => rfl)
    -- parseQueryBlock
    · intro block p bt c hsz hp
      match block, hsz with
      | .mk tbl nl oo go dr ur osq ooas oatt oqb msg, hsz =>
        match oo, hsz with
        | some (.mk uf utt ci otbl onl ogo), hsz =>
          have hlt1 : sizeOf onl < N := by
            have h0 : sizeOf onl < sizeOf
                (QueryBlock.mk tbl nl (some (OrderingOperation.mk uf utt ci otbl onl ogo))
                  go dr ur osq ooas oatt oqb msg) := by simp <;> omega
            omega
          have hlt2 : sizeOf ogo < N := by
            have h0 : sizeOf ogo < sizeOf
                (QueryBlock.mk tbl nl (some (OrderingOperation.mk uf utt ci otbl onl ogo))
                  go dr ur osq ooas oatt oqb msg) := by simp <;> omega
            omega
          have hlt3 : sizeOf otbl < N := by
            have h0 : sizeOf otbl < sizeOf
                (QueryBlock.mk tbl nl (some (OrderingOperation.mk uf utt ci otbl onl ogo))
                  go dr ur osq ooas oatt oqb msg) := by simp <;> omega
            omega
          have h1 := IHsnl _ hlt1 onl (some (c + 1)) (c + 1) (le_refl _)
            (ParentOK.some (le_refl _))
          have h2 := IHsg _ hlt2 ogo (some (c + 1))
            (stepNestedLoop onl (some (c + 1)) (c + 1)).2 (le_refl _)
            ((ParentOK.some (le_refl _)).mono h1.counter_le)
          have h3 := IHst _ hlt3 otbl (some (c + 1))
            (stepGrouping ogo (some (c + 1))
              (stepNestedLoop onl (some (c + 1)) (c + 1)).2).2 (le_refl _)
            ((ParentOK.some (le_refl _)).mono (le_trans h1.counter_le h2.counter_le))
          refine PInv.node _ hp ((h1.append h2).append h3) rfl ?_ rfl
            (by intro hcon; simp at hcon)
          intro i hi
          have hi2 : i ∈ (stepNestedLoop onl (some (c + 1)) (c + 1)).1.ids := hi
          rw [PR.ids_append, PR.ids_append]
          exact List.mem_append_left _ (List.mem_append_left _ hi2)
        | none, hsz =>
        match go, hsz with
        | some g, hsz =>
          have hlt : sizeOf g < N := by
            have h0 : sizeOf g < sizeOf
                (QueryBlock.mk tbl nl none (some g) dr ur osq ooas oatt oqb msg) := by simp <;> omega
            omega
          exact IHgrp _ hlt g p c (le_refl _) hp
        | none, hsz =>
        match dr, hsz with
        | some (.mk duf dutt dci dotbl donl), hsz =>
          have hlt1 : sizeOf donl < N := by
            have h0 : sizeOf donl < sizeOf
                (QueryBlock.mk tbl nl none none
                  (some (DuplicatesRemoval.mk duf dutt dci dotbl donl))
                  ur osq ooas oatt oqb msg) := by simp <;> omega
            omega
          have hlt2 : sizeOf dotbl < N := by
            have h0 : sizeOf dotbl < sizeOf
                (QueryBlock.mk tbl nl none none
                  (some (DuplicatesRemoval.mk duf dutt dci dotbl donl))
                  ur osq ooas oatt oqb msg) := by simp <;> omega
            omega
          have h1 := IHsnl _ hlt1 donl (some (c + 1)) (c + 1) (le_refl _)
            (ParentOK.some (le_refl _))
          have h2 := IHst _ hlt2 dotbl (some (c + 1))
            (stepNestedLoop donl (some (c + 1)) (c + 1)).2 (le_refl _)
            ((ParentOK.some (le_refl _)).mono h1.counter_le)
          exact PInv.node _ hp (h1.append h2) rfl
            (by intro i hi; simp at hi) rfl (fun _ => rfl)
        | none, hsz =>
        match ur, hsz with
        | some (.mk uutt specs), hsz =>
          have hlt : sizeOf specs < N := by
            have h0 : sizeOf specs < sizeOf
                (QueryBlock.mk tbl nl none none none (some (UnionResult.mk uutt specs))
                  osq ooas oatt oqb msg) := by simp <;> omega
            omega
          have h1 := IHusp _ hlt specs (c + 1) (c + 1) (le_refl _) (le_refl _)
          exact PInv.node _ hp h1 rfl
            (by intro i hi; simp at hi) rfl (fun _ => rfl)
        | none, hsz =>
          have hlt1 : sizeOf nl < N := by
            have h0 : sizeOf nl < sizeOf
                (QueryBlock.mk tbl nl none none none none osq ooas oatt oqb msg) := by simp <;> omega
            omega
          have hlt2 : sizeOf tbl < N := by
            have h0 : sizeOf tbl < sizeOf
                (QueryBlock.mk tbl nl none none none none osq ooas oatt oqb msg) := by simp <;> omega
            omega
          have hlt3 : sizeOf osq < N := by
            have h0 : sizeOf osq < sizeOf
                (QueryBlock.mk tbl nl none none none none osq ooas oatt oqb msg) := by simp <;> omega
            omega
          have hlt4 : sizeOf ooas < N := by
            have h0 : sizeOf ooas < sizeOf
                (QueryBlock.mk tbl nl none none none none osq ooas oatt oqb msg) := by simp <;> omega
            omega
          have hlt5 : sizeOf oatt < N := by
            have h0 : sizeOf oatt < sizeOf
                (QueryBlock.mk tbl nl none none none none osq ooas oatt oqb msg) := by simp <;> omega
            omega
          have hlt6 : sizeOf oqb < N := by
            have h0 : sizeOf oqb < sizeOf
                (QueryBlock.mk tbl nl none none none none osq ooas oatt oqb msg) := by simp <;> omega
            omega
          have h1 := IHsnl _ hlt1 nl p c (le_refl _) hp
          have h2 := IHst _ hlt2 tbl p (stepNestedLoop nl p c).2 (le_refl _)
            (hp.mono h1.counter_le)
          have h3 := IHssub _ hlt3 osq p
            (stepTable tbl p (stepNestedLoop nl p c).2).2 (le_refl _)
            (hp.mono (le_trans h1.counter_le h2.counter_le))
          have h4 := IHssub _ hlt4 ooas p
            (stepSubqueries osq p (stepTable tbl p (stepNestedLoop nl p c).2).2).2
            (le_refl _)
            (hp.mono (le_trans (le_trans h1.counter_le h2.counter_le) h3.counter_le))
          have h5 := IHssub _ hlt5 oatt p
            (stepSubqueries ooas p
              (stepSubqueries osq p (stepTable tbl p (stepNestedLoop nl p c).2).2).2).2
            (le_refl _)
            (hp.mono (le_trans (le_trans (le_trans h1.counter_le h2.counter_le)
              h3.counter_le) h4.counter_le))
          have h6 := IHsqb _ hlt6 oqb p
            (stepSubqueries oatt p
              (stepSubqueries ooas p
                (stepSubqueries osq p
                  (stepTable tbl p (stepNestedLoop nl p c).2).2).2).2).2
            (le_refl _)
            (hp.mono (le_trans (le_trans (le_trans (le_trans h1.counter_le
              h2.counter_le) h3.counter_le) h4.counter_le) h5.counter_le))
          exact stepMessage_inv msg bt
            (h1.append (h2.append (h3.append (h4.append (h5.append h6))))) hp

/-! ## Corollaries of the parse invariant -/

lemma parseQueryBlock_inv (block : QueryBlock) (p : Option ℕ) (bt : NodeType) (c : ℕ)
    (hp : ParentOK p c) :
    PInv c p (parseQueryBlock block p bt c).1 (parseQueryBlock block p bt c).2 :=
  (parse_inv_at (sizeOf block)).2.2.2.2.2.2.2.2.2.2.2.2.2 block p bt c (le_refl _) hp

/-- The top level parse result before marking satisfies the invariant with
base counter 0 and no attachment point. -/
lemma parseRoot_inv (json : MySQLExplainJSON) :
    PInv 0 none
      (parseQueryBlock json.query_block none NodeType.select 0).1
      (parseQueryBlock json.query_block none NodeType.select 0).2 :=
  parseQueryBlock_inv json.query_block none NodeType.select 0 (ParentOK.none_ok 0)

lemma markFun_id (ids0 : List ℕ) (n : PlanNode) : (markFun ids0 n).id = n.id := by
  unfold markFun; split <;> rfl

lemma markFun_children (ids0 : List ℕ) (n : PlanNode) :
    (markFun ids0 n).children = n.children := by
  unfold markFun; split <;> rfl

lemma markFun_type (ids0 : List ℕ) (n : PlanNode) :
    (markFun ids0 n).type = n.type := by
  unfold markFun; split <;> rfl

lemma markFun_cost (ids0 : List ℕ) (n : PlanNode) :
    (markFun ids0 n).cost = n.cost := by
  unfold markFun; split <;> rfl

/-- `markCriticalPath` only flips `isCriticalPath` flags: every branch of it
is a map of `markFun` over the input (the marked id set is empty in the
branches that mark nothing). -/
lemma markFun_nil (n : PlanNode) : markFun [] n = n := by
  unfold markFun
  simp

lemma markCriticalPath_eq_map (ns : List PlanNode) :
    ∃ ids0 : List ℕ, markCriticalPath ns = ns.map (markFun ids0) := by
  by_cases hn : ns = []
  · subst hn
    exact ⟨[], rfl⟩
  · have hunf : markCriticalPath ns =
        (match sortCostDesc ((ns.filter
            (fun n => ¬ (ns.flatMap (fun x => x.children)).contains n.id)).map
            (fun n => (n.id, nodeCostOrZero ns n.id))) with
          | [] => ns
          | best :: _ =>
            ns.map (markFun (markPathIds ns (nodeCostOrZero ns) ns.length best.1))) := by
      unfold markCriticalPath
      rw [if_neg hn]
    have hgen : ∀ (scrut : List (ℕ × ℚ)),
        (match scrut with
          | [] => ns
          | best :: _ =>
            ns.map (markFun (markPathIds ns (nodeCostOrZero ns) ns.length best.1))) =
        ns.map (markFun (match scrut with
          | [] => ([] : List ℕ)
          | best :: _ => markPathIds ns (nodeCostOrZero ns) ns.length best.1)) := by
      intro scrut
      match scrut with
      | [] =>
        show ns = ns.map (markFun [])
        rw [show markFun [] = fun n => n from funext markFun_nil]
        exact (List.map_id' ns).symm
      | best :: rest => rfl
    rw [hunf, hgen]
    exact ⟨_, rfl⟩

/-! ## Critical-path machinery (claim C2) -/

lemma insertCostDesc_head (p : ℕ × ℚ) (l : List (ℕ × ℚ)) :
    (insertCostDesc p l).head? =
      some (match l.head? with
        | none => p
        | some q => if q.2 < p.2 then p else q) := by
  cases l with
  | nil => rfl
  | cons q rest =>
    by_cases h : q.2 < p.2
    · simp [insertCostDesc, h]
    · simp [insertCostDesc, h]

lemma foldl_insert_head (l acc : List (ℕ × ℚ)) :
    (l.foldl (fun a p => insertCostDesc p a) acc).head? = l.foldl headStep acc.head? := by
  induction l generalizing acc with
  | nil => rfl
  | cons p rest IH =>
    simp only [List.foldl_cons]
    rw [IH]
    congr 1
    rw [insertCostDesc_head]
    cases acc <;> rfl

lemma foldl_headStep_pairs (cost : ℕ → ℚ) (xs : List ℕ) (a : ℕ) :
    (xs.map (fun c => (c, cost c))).foldl headStep (some (a, cost a)) =
      some (xs.foldl (fun m x => if cost m < cost x then x else m) a,
            cost (xs.foldl (fun m x => if cost m < cost x then x else m) a)) := by
  induction xs generalizing a with
  | nil => rfl
  | cons x rest IH =>
    simp only [List.map_cons, List.foldl_cons]
    have hstep : headStep (some (a, cost a)) (x, cost x) =
        some ((if cost a < cost x then x else a), cost (if cost a < cost x then x else a)) := by
      by_cases h : cost a < cost x <;> simp [headStep, h]
    rw [hstep, IH]

lemma foldl_firstMax_eq (cost : ℕ → ℚ) (xs : List ℕ) (a : ℕ) :
    xs.foldl (fun m x => if cost m < cost x then x else m) a =
      (match firstMaxBy cost xs with
        | none => a
        | some b => if cost a < cost b then b else a) := by
  induction xs generalizing a with
  | nil => rfl
  | cons x rest IH =>
    simp only [List.foldl_cons, firstMaxBy]
    rw [IH]
    rcases h : firstMaxBy cost rest with _ | b
    · rfl
    · by_cases h1 : cost x < cost b <;> by_cases h2 : cost a < cost x <;>
        simp only [h1, h2, if_true, if_false] <;>
        split_ifs <;> first | rfl | (exfalso; linarith)

lemma sortCostDesc_head_eq_firstMaxBy (cost : ℕ → ℚ) (xs : List ℕ) :
    (sortCostDesc (xs.map (fun c => (c, cost c)))).head? =
      (firstMaxBy cost xs).map (fun b => (b, cost b)) := by
  rw [show sortCostDesc (xs.map fun c => (c, cost c)) =
      (xs.map fun c => (c, cost c)).foldl (fun a p => insertCostDesc p a) [] from rfl]
  rw [foldl_insert_head]
  cases xs with
  | nil => rfl
  | cons x rest =>
    simp only [List.map_cons, List.foldl_cons]
    rw [show headStep (List.head? []) (x, cost x) = some (x, cost x) from rfl]
    rw [foldl_headStep_pairs, foldl_firstMax_eq]
    simp only [firstMaxBy]
    rcases h : firstMaxBy cost rest with _ | b
    · rfl
    · by_cases h1 : cost x < cost b <;> simp [h1]

lemma firstMaxBy_eq_none_iff (cost : ℕ → ℚ) (xs : List ℕ) :
    firstMaxBy cost xs = none ↔ xs = [] := by
  cases xs with
  | nil => simp [firstMaxBy]
  | cons a rest =>
    simp only [firstMaxBy]
    rcases h : firstMaxBy cost rest with _ | b
    · simp
    · by_cases h1 : cost a < cost b <;> simp [h1]

lemma firstMaxBy_isSome (cost : ℕ → ℚ) (xs : List ℕ) (h : xs ≠ []) :
    ∃ b, firstMaxBy cost xs = some b := by
  rcases h2 : firstMaxBy cost xs with _ | b
  · exact absurd ((firstMaxBy_eq_none_iff cost xs).mp h2) h
  · exact ⟨b, rfl⟩

lemma firstMaxBy_mem_max (cost : ℕ → ℚ) :
    ∀ (xs : List ℕ) (b : ℕ), firstMaxBy cost xs = some b →
      b ∈ xs ∧ ∀ a ∈ xs, cost a ≤ cost b := by
  intro xs
  induction xs with
  | nil => intro b h; cases h
  | cons x rest IH =>
    intro b h
    simp only [firstMaxBy] at h
    rcases h2 : firstMaxBy cost rest with _ | c
    · rw [h2] at h
      cases h
      refine ⟨List.mem_cons_self _ _, ?_⟩
      intro a ha
      rcases List.mem_cons.mp ha with rfl | ha
      · exact le_refl _
      · rw [(firstMaxBy_eq_none_iff cost rest).mp h2] at ha
        cases ha
    · rw [h2] at h
      have h' : (if cost x < cost c then some c else some x) = some b := h
      obtain ⟨hcmem, hcmax⟩ := IH c h2
      by_cases h1 : cost x < cost c
      · rw [if_pos h1] at h'
        cases h'
        refine ⟨List.mem_cons_of_mem _ hcmem, ?_⟩
        intro a ha
        rcases List.mem_cons.mp ha with rfl | ha
        · exact le_of_lt h1
        · exact hcmax a ha
      · rw [if_neg h1] at h'
        cases h'
        refine ⟨List.mem_cons_self _ _, ?_⟩
        intro a ha
        rcases List.mem_cons.mp ha with rfl | ha
        · exact le_refl _
        · exact le_trans (hcmax a ha) (le_of_not_lt h1)

lemma filter_ge_length_mono (l : List ℕ) {i j : ℕ} (hij : i ≤ j) :
    (l.filter (fun x => j ≤ x)).length ≤ (l.filter (fun x => i ≤ x)).length := by
  induction l with
  | nil => simp
  | cons a rest IH =>
    rw [List.filter_cons, List.filter_cons]
    by_cases hj : j ≤ a
    · have hi : i ≤ a := le_trans hij hj
      simp only [hj, hi, decide_eq_true_eq, if_pos trivial, List.length_cons]
      omega
    · by_cases hi : i ≤ a
      · simp [hj, hi]
        omega
      · simp [hj, hi]
        exact IH

lemma filter_ge_length_lt {l : List ℕ} {i j : ℕ} (hij : i < j) (hi : i ∈ l) :
    (l.filter (fun x => j ≤ x)).length < (l.filter (fun x => i ≤ x)).length := by
  induction l with
  | nil => cases hi
  | cons a rest IH =>
    rw [List.filter_cons, List.filter_cons]
    rcases List.mem_cons.mp hi with rfl | hmem
    · have hj : ¬ j ≤ i := by omega
      simp [hj]
      have := filter_ge_length_mono rest (le_of_lt hij)
      omega
    · have hrest := IH hmem
      by_cases hj : j ≤ a
      · have hia : i ≤ a := le_trans (le_of_lt hij) hj
        simp [hj, hia]
        omega
      · by_cases hia : i ≤ a
        · simp [hj, hia]
          omega
        · simp [hj, hia]
          exact hrest

lemma cntAbove_pos {ns : List PlanNode} {n : PlanNode} (hn : n ∈ ns) :
    1 ≤ cntAbove ns n.id := by
  have hmem : n.id ∈ (ns.map (·.id)).filter (fun x => n.id ≤ x) := by
    rw [List.mem_filter]
    exact ⟨List.mem_map_of_mem _ hn, by simp⟩
  have := List.length_pos.mpr (List.ne_nil_of_mem hmem)
  unfold cntAbove
  omega

lemma cntAbove_le_length (ns : List PlanNode) (i : ℕ) : cntAbove ns i ≤ ns.length := by
  unfold cntAbove
  calc ((ns.map (·.id)).filter (fun x => i ≤ x)).length
      ≤ (ns.map (·.id)).length := List.length_filter_le _ _
    _ = ns.length := List.length_map _ _

lemma cntAbove_lt {ns : List PlanNode} {n : PlanNode} {j : ℕ}
    (hn : n ∈ ns) (hij : n.id < j) :
    cntAbove ns j < cntAbove ns n.id :=
  filter_ge_length_lt hij (List.mem_map_of_mem _ hn)

lemma findNode_eq_self {ns : List PlanNode} (hnd : (ns.map (·.id)).Nodup)
    {n : PlanNode} (hn : n ∈ ns) : findNode ns n.id = some n := by
  induction ns with
  | nil => cases hn
  | cons a rest IH =>
    rw [List.map_cons, List.nodup_cons] at hnd
    rcases List.mem_cons.mp hn with rfl | hmem
    · unfold findNode
      rw [List.find?_cons_of_pos _ (by simp)]
    · have hne : ¬ (a.id = n.id) := by
        intro he
        exact hnd.1 (he ▸ List.mem_map_of_mem _ hmem)
      unfold findNode
      rw [List.find?_cons_of_neg _ (by simpa using hne)]
      exact IH hnd.2 hmem

lemma findNode_mem {ns : List PlanNode} {i : ℕ} {n : PlanNode}
    (h : findNode ns i = some n) : n ∈ ns ∧ n.id = i := by
  refine ⟨List.mem_of_find?_eq_some h, ?_⟩
  have := List.find?_some h
  simpa using this

lemma chain_lt_nodup {p : List ℕ} (h : List.Chain' (· < ·) p) : p.Nodup :=
  (List.chain'_iff_pairwise.mp h).imp (fun hlt => Nat.ne_of_lt hlt)

/-- The greedy descent of `markPath`, on any node list with distinct ids
whose `children` name ids of the list that strictly exceed the parent's id:
given fuel at least the count of ids above the start, the emitted id list
starts at the start node, each step moves to the first child of maximal
cost, it ends at a leaf, and it is strictly increasing. -/
lemma markPathIds_spec (ns : List PlanNode) (cost : ℕ → ℚ)
    (hnd : (ns.map (·.id)).Nodup)
    (hcm : ∀ n ∈ ns, ∀ i ∈ n.children, i ∈ ns.map (·.id))
    (hcg : ∀ n ∈ ns, ∀ i ∈ n.children, n.id < i) :
    ∀ (fuel : ℕ) (n : PlanNode), n ∈ ns → cntAbove ns n.id ≤ fuel →
      (markPathIds ns cost fuel n.id).head? = some n.id ∧
      List.Chain' (fun a b => ∃ m ∈ ns, m.id = a ∧ firstMaxBy cost m.children = some b)
        (markPathIds ns cost fuel n.id) ∧
      (∀ l, (markPathIds ns cost fuel n.id).getLast? = some l →
        ∃ m ∈ ns, m.id = l ∧ m.children = []) ∧
      List.Chain' (· < ·) (markPathIds ns cost fuel n.id) := by
  intro fuel
  induction fuel with
  | zero =>
    intro n hn hf
    exact absurd hf (by have := cntAbove_pos hn; omega)
  | succ fuel IH =>
    intro n hn hf
    have hfind : findNode ns n.id = some n := findNode_eq_self hnd hn
    by_cases hch : n.children = []
    · have hp : markPathIds ns cost (fuel + 1) n.id = [n.id] := by
        simp only [markPathIds, hfind, hch, if_pos trivial]
      rw [hp]
      refine ⟨rfl, List.chain'_singleton _, ?_, List.chain'_singleton _⟩
      intro l hl
      have hl2 : n.id = l := by simpa using hl
      exact ⟨n, hn, hl2, hch⟩
    · obtain ⟨b, hb⟩ := firstMaxBy_isSome cost n.children hch
      obtain ⟨hbmem, _⟩ := firstMaxBy_mem_max cost n.children b hb
      obtain ⟨m, hm, hmid⟩ : ∃ m ∈ ns, m.id = b := by
        obtain ⟨m, hm, he⟩ := List.mem_map.mp (hcm n hn b hbmem)
        exact ⟨m, hm, he⟩
      have hlt : n.id < b := hcg n hn b hbmem
      have hcnt : cntAbove ns b ≤ fuel := by
        have h1 : cntAbove ns b < cntAbove ns n.id := cntAbove_lt hn hlt
        omega
      have hsort : (sortCostDesc (n.children.map (fun cid => (cid, cost cid)))).head? =
          some (b, cost b) := by
        rw [sortCostDesc_head_eq_firstMaxBy, hb]
        rfl
      obtain ⟨tl, htl⟩ : ∃ tl,
          sortCostDesc (n.children.map (fun cid => (cid, cost cid))) = (b, cost b) :: tl := by
        rcases hsd : sortCostDesc (n.children.map (fun cid => (cid, cost cid))) with _ | ⟨hd, tl⟩
        · rw [hsd] at hsort
          cases hsort
        · rw [hsd] at hsort
          have : hd = (b, cost b) := by simpa using hsort
          exact ⟨tl, by rw [this]⟩
      have hp : markPathIds ns cost (fuel + 1) n.id = n.id :: markPathIds ns cost fuel b := by
        simp only [markPathIds, hfind, hch, htl]
        simp
      obtain ⟨qh, qc, ql, qlt⟩ := IH m hm (by rw [hmid]; exact hcnt)
      rw [hmid] at qh qc ql qlt
      rw [hp]
      have hqne : markPathIds ns cost fuel b ≠ [] := by
        intro he
        rw [he] at qh
        cases qh
      refine ⟨rfl, ?_, ?_, ?_⟩
      · refine List.chain'_cons'.mpr ⟨?_, qc⟩
        intro y hy
        rw [qh] at hy
        cases hy
        exact ⟨n, hn, rfl, hb⟩
      · intro l hl
        rcases hq : markPathIds ns cost fuel b with _ | ⟨qhd, qtl⟩
        · exact absurd hq hqne
        · rw [hq] at hl
          rw [List.getLast?_cons_cons] at hl
          rw [hq] at ql
          exact ql l hl
      · refine List.chain'_cons'.mpr ⟨?_, qlt⟩
        intro y hy
        rw [qh] at hy
        cases hy
        exact hlt

lemma foldl_jsMax_num (qs : List ℚ) (a : ℚ) :
    (qs.map JSNum.num).foldl jsMax (.num a) = .num (qs.foldl max a) := by
  induction qs generalizing a with
  | nil => rfl
  | cons q rest IH =>
    simp only [List.map_cons, List.foldl_cons]
    rw [show jsMax (.num a) (.num q) = .num (max a q) from rfl, IH]

lemma le_foldl_max (l : List ℚ) (a : ℚ) : a ≤ l.foldl max a := by
  induction l generalizing a with
  | nil => exact le_refl a
  | cons b rest IH =>
    simp only [List.foldl_cons]
    exact le_trans (le_max_left a b) (IH (max a b))

lemma maxQ_eq_foldl (qs : List ℚ) (h : ∀ r ∈ qs, 0 ≤ r) : qs.foldl max 0 = maxQ qs := by
  cases qs with
  | nil => rfl
  | cons a rest =>
    simp only [maxQ, List.foldl_cons]
    rw [max_eq_right (h a (List.mem_cons_self _ _))]

lemma maxQ_nonneg (qs : List ℚ) (h : ∀ r ∈ qs, 0 ≤ r) : 0 ≤ maxQ qs := by
  cases qs with
  | nil => exact le_refl 0
  | cons a rest =>
    exact le_trans (h a (List.mem_cons_self _ _)) (le_foldl_max rest a)

/-- With every node cost a nonnegative rational, the source's cumulative
cost (which clamps the children's maximum at 0 through `Math.max(0, …)`)
agrees with the claim's cumulative cost at every fuel, and is
nonnegative. -/
lemma cumulativeCost_eq_spec (ns : List PlanNode)
    (hc : ∀ n ∈ ns, ∃ q, n.cost = .num q ∧ 0 ≤ q) :
    ∀ (fuel : ℕ) (i : ℕ),
      cumulativeCost ns fuel i = .num (specCumCost ns fuel i) ∧
      0 ≤ specCumCost ns fuel i := by
  intro fuel
  induction fuel with
  | zero => intro i; exact ⟨rfl, le_refl 0⟩
  | succ fuel IH =>
    intro i
    rcases hfind : findNode ns i with _ | node
    · constructor
      · simp only [cumulativeCost, specCumCost, hfind]
      · simp only [specCumCost, hfind]
        exact le_refl 0
    · obtain ⟨q, hq, hq0⟩ := hc node (findNode_mem hfind).1
      have hmap : node.children.map (cumulativeCost ns fuel) =
          (node.children.map (specCumCost ns fuel)).map JSNum.num := by
        rw [List.map_map]
        apply List.map_congr_left
        intro a _
        exact (IH a).1
      have hnn : ∀ r ∈ node.children.map (specCumCost ns fuel), 0 ≤ r := by
        intro r hr
        obtain ⟨a, _, rfl⟩ := List.mem_map.mp hr
        exact (IH a).2
      have hfold : (node.children.map (cumulativeCost ns fuel)).foldl jsMax (.num 0) =
          .num (maxQ (node.children.map (specCumCost ns fuel))) := by
        rw [hmap, foldl_jsMax_num, maxQ_eq_foldl _ hnn]
      have hgoal1 : cumulativeCost ns (fuel + 1) i =
          jsAdd node.cost ((node.children.map (cumulativeCost ns fuel)).foldl jsMax (.num 0)) := by
        simp only [cumulativeCost, hfind]
      have hgoal2 : specCumCost ns (fuel + 1) i =
          jsOrZero node.cost + maxQ (node.children.map (specCumCost ns fuel)) := by
        simp only [specCumCost, hfind]
      constructor
      · rw [hgoal1, hgoal2, hq, hfold]
        rfl
      · rw [hgoal2, hq]
        have h1 : 0 ≤ maxQ (node.children.map (specCumCost ns fuel)) := maxQ_nonneg _ hnn
        have h2 : jsOrZero (.num q) = q := rfl
        rw [h2]
        linarith

/-- On a node list of all-numeric nonnegative costs, the `|| 0` read of the
memoized cumulative cost is the claim's cumulative cost. -/
lemma nodeCostOrZero_eq_ccost (ns : List PlanNode)
    (hc : ∀ n ∈ ns, ∃ q, n.cost = .num q ∧ 0 ≤ q) :
    nodeCostOrZero ns = ccost ns := by
  funext i
  unfold nodeCostOrZero ccost
  rw [(cumulativeCost_eq_spec ns hc ns.length i).1]
  rfl

lemma exists_min_id (ns : List PlanNode) (h : ns ≠ []) :
    ∃ m ∈ ns, ∀ n ∈ ns, m.id ≤ n.id := by
  induction ns with
  | nil => exact absurd rfl h
  | cons a rest IH =>
    rcases eq_or_ne rest [] with rfl | hne
    · refine ⟨a, List.mem_cons_self _ _, ?_⟩
      intro n hn
      rcases List.mem_cons.mp hn with rfl | hn
      · exact le_refl _
      · cases hn
    · obtain ⟨m, hm, hmin⟩ := IH hne
      rcases le_total a.id m.id with hle | hle
      · refine ⟨a, List.mem_cons_self _ _, ?_⟩
        intro n hn
        rcases List.mem_cons.mp hn with rfl | hn
        · exact le_refl _
        · exact le_trans hle (hmin n hn)
      · refine ⟨m, List.mem_cons_of_mem _ hm, ?_⟩
        intro n hn
        rcases List.mem_cons.mp hn with rfl | hn
        · exact hle
        · exact hmin n hn

/-- Membership in the filtered root-node list of `markCriticalPath`. -/
lemma mem_rootNodes_iff (ns : List PlanNode) (n : PlanNode) :
    n ∈ ns.filter (fun n => ¬ (ns.flatMap (fun x => x.children)).contains n.id) ↔
      n ∈ ns ∧ ∀ m ∈ ns, n.id ∉ m.children := by
  rw [List.mem_filter]
  constructor
  · rintro ⟨h1, h2⟩
    refine ⟨h1, ?_⟩
    intro m hm hmem
    simp only [decide_eq_true_eq, List.elem_iff,
      List.mem_flatMap] at h2
    exact h2 ⟨m, hm, hmem⟩
  · rintro ⟨h1, h2⟩
    refine ⟨h1, ?_⟩
    simp only [decide_eq_true_eq, List.elem_iff, List.mem_flatMap]
    rintro ⟨m, hm, hmem⟩
    exact h2 m hm hmem

/-- `IsRootId` in terms of the filtered root-node list. -/
lemma isRootId_iff (ns : List PlanNode) (i : ℕ) :
    IsRootId ns i ↔
      i ∈ (ns.filter (fun n => ¬ (ns.flatMap (fun x => x.children)).contains n.id)).map
        (·.id) := by
  constructor
  · rintro ⟨h1, h2⟩
    obtain ⟨n, hn, rfl⟩ := List.mem_map.mp h1
    exact List.mem_map_of_mem _ ((mem_rootNodes_iff ns n).mpr ⟨hn, fun m hm => h2 m hm⟩)
  · intro h
    obtain ⟨n, hn, rfl⟩ := List.mem_map.mp h
    obtain ⟨h1, h2⟩ := (mem_rootNodes_iff ns n).mp hn
    exact ⟨List.mem_map_of_mem _ h1, h2⟩

/-- `find?` through a map whose function preserves the searched id. -/
lemma findNode_map_markFun (ns : List PlanNode) (ids0 : List ℕ) (i : ℕ) :
    findNode (ns.map (markFun ids0)) i = (findNode ns i).map (markFun ids0) := by
  unfold findNode
  induction ns with
  | nil => rfl
  | cons a rest IH =>
    rw [List.map_cons]
    by_cases h : a.id = i
    · rw [List.find?_cons_of_pos _ (by simp [markFun_id, h]),
        List.find?_cons_of_pos _ (by simp [h])]
      rfl
    · rw [List.find?_cons_of_neg _ (by simp [markFun_id, h]),
        List.find?_cons_of_neg _ (by simp [h])]
      exact IH

/-- The claim's cumulative cost only reads ids, costs and `children`, all
of which marking preserves. -/
lemma specCumCost_map_markFun (ns : List PlanNode) (ids0 : List ℕ) :
    ∀ (fuel : ℕ) (i : ℕ),
      specCumCost (ns.map (markFun ids0)) fuel i = specCumCost ns fuel i := by
  intro fuel
  induction fuel with
  | zero => intro i; rfl
  | succ fuel IH =>
    intro i
    rcases hfind : findNode ns i with _ | node
    · simp only [specCumCost, findNode_map_markFun, hfind]
      rfl
    · have hfind2 : findNode (ns.map (markFun ids0)) i = some (markFun ids0 node) := by
        rw [findNode_map_markFun, hfind]
        rfl
      simp only [specCumCost, hfind2, hfind]
      rw [markFun_cost, markFun_children]
      congr 1
      apply congrArg
      apply List.map_congr_left
      intro a _
      exact IH a

lemma ccost_map_markFun (ns : List PlanNode) (ids0 : List ℕ) :
    ccost (ns.map (markFun ids0)) = ccost ns := by
  funext i
  unfold ccost
  rw [List.length_map]
  exact specCumCost_map_markFun ns ids0 ns.length i

lemma isRootId_map_markFun (ns : List PlanNode) (ids0 : List ℕ) (i : ℕ) :
    IsRootId (ns.map (markFun ids0)) i ↔ IsRootId ns i := by
  unfold IsRootId
  constructor
  · rintro ⟨h1, h2⟩
    rw [List.map_map] at h1
    refine ⟨?_, ?_⟩
    · obtain ⟨n, hn, he⟩ := List.mem_map.mp h1
      exact List.mem_map.mpr ⟨n, hn, (markFun_id ids0 n).symm.trans he⟩
    · intro n hn hmem
      exact h2 (markFun ids0 n) (List.mem_map_of_mem _ hn) (by rwa [markFun_children])
  · rintro ⟨h1, h2⟩
    refine ⟨?_, ?_⟩
    · obtain ⟨n, hn, he⟩ := List.mem_map.mp h1
      exact List.mem_map.mpr ⟨markFun ids0 n, List.mem_map_of_mem _ hn, by rw [markFun_id, he]⟩
    · intro n hn hmem
      obtain ⟨n0, hn0, rfl⟩ := List.mem_map.mp hn
      rw [markFun_children] at hmem
      exact h2 n0 hn0 hmem

/-! ## Claim C2 — the critical path -/

/-- C2 counterexample: a query block with no recognized content and no
message parses to zero nodes — no node at all is marked, so no parse-wide
"exactly one marked root-to-leaf path" exists. -/
theorem empty_parse_marks_no_path :
    (parseExplainJSON exEmpty 0).1.planNodes = [] ∧
    ∀ p, ¬ GreedyPath (parseExplainJSON exEmpty 0).1.planNodes p := by
  refine ⟨by decide, ?_⟩
  intro p hp
  obtain ⟨b, hb⟩ : ∃ b, p.head? = some b := by
    rcases hpl : p with _ | ⟨a, rest⟩
    · exact absurd rfl (hpl ▸ hp.nonempty)
    · exact ⟨a, rfl⟩
  have hroot := (hp.head_root b hb).1
  have h1 := hroot.1
  rw [show (parseExplainJSON exEmpty 0).1.planNodes = [] from by decide] at h1
  cases h1

/-- C2 (amended): on a nonempty parse all of whose node costs are
(nonnegative) numbers, the marked nodes are exactly the ids of one greedy
maximal-cost chain: it starts at a root of globally maximal cumulative
cost, each step descends to the first child of maximal cumulative cost,
it ends at a leaf, and it never repeats a node. -/
theorem critical_path_is_greedy (json : MySQLExplainJSON) (c0 : ℕ)
    (hne : (parseExplainJSON json c0).1.planNodes ≠ [])
    (hcost : ∀ n ∈ (parseExplainJSON json c0).1.planNodes,
      ∃ q, n.cost = JSNum.num q ∧ 0 ≤ q) :
    ∃ p, GreedyPath (parseExplainJSON json c0).1.planNodes p ∧
      ∀ n ∈ (parseExplainJSON json c0).1.planNodes,
        (n.isCriticalPath = true ↔ n.id ∈ p) := by
  have hinv := parseRoot_inv json
  have hnd : (((parseQueryBlock json.query_block none NodeType.select 0).1.nodes).map
      (·.id)).Nodup := hinv.ids_nodup
  have hcm : ∀ n ∈ (parseQueryBlock json.query_block none NodeType.select 0).1.nodes,
      ∀ i ∈ n.children,
      i ∈ ((parseQueryBlock json.query_block none NodeType.select 0).1.nodes).map (·.id) :=
    hinv.child_mem
  have hcg : ∀ n ∈ (parseQueryBlock json.query_block none NodeType.select 0).1.nodes,
      ∀ i ∈ n.children, n.id < i := hinv.child_gt
  have hunm : ∀ n ∈ (parseQueryBlock json.query_block none NodeType.select 0).1.nodes,
      n.isCriticalPath = false := hinv.unmarked
  have hplan : (parseExplainJSON json c0).1.planNodes =
      markCriticalPath (parseQueryBlock json.query_block none NodeType.select 0).1.nodes :=
    rfl
  generalize hgen : (parseQueryBlock json.query_block none NodeType.select 0).1.nodes = ns
    at hnd hcm hcg hunm hplan
  obtain ⟨ids0, hmark⟩ := markCriticalPath_eq_map ns
  have hcostns : ∀ n ∈ ns, ∃ q, n.cost = JSNum.num q ∧ 0 ≤ q := by
    intro n hn
    have hmem : markFun ids0 n ∈ (parseExplainJSON json c0).1.planNodes := by
      rw [hplan, hmark]
      exact List.mem_map_of_mem _ hn
    obtain ⟨q, hq, h0⟩ := hcost _ hmem
    rw [markFun_cost] at hq
    exact ⟨q, hq, h0⟩
  have hnsne : ns ≠ [] := by
    intro h
    apply hne
    rw [hplan, h]
    rfl
  have hccost : nodeCostOrZero ns = ccost ns := nodeCostOrZero_eq_ccost ns hcostns
  have hunf : markCriticalPath ns =
      (match sortCostDesc ((ns.filter
          (fun n => ¬ (ns.flatMap (fun x => x.children)).contains n.id)).map
          (fun n => (n.id, nodeCostOrZero ns n.id))) with
        | [] => ns
        | best :: _ =>
          ns.map (markFun (markPathIds ns (nodeCostOrZero ns) ns.length best.1))) := by
    unfold markCriticalPath
    rw [if_neg hnsne]
  have hpair : ((ns.filter
        (fun n => ¬ (ns.flatMap (fun x => x.children)).contains n.id)).map
        (fun n => (n.id, nodeCostOrZero ns n.id))) =
      (((ns.filter
        (fun n => ¬ (ns.flatMap (fun x => x.children)).contains n.id)).map (·.id)).map
        (fun c => (c, nodeCostOrZero ns c))) := by
    rw [List.map_map]
    rfl
  obtain ⟨mmin, hmmin, hminle⟩ := exists_min_id ns hnsne
  have hmroot : mmin ∈ ns.filter
      (fun n => ¬ (ns.flatMap (fun x => x.children)).contains n.id) := by
    rw [mem_rootNodes_iff]
    refine ⟨hmmin, ?_⟩
    intro m hm hmem
    have h1 := hcg m hm mmin.id hmem
    have h2 := hminle m hm
    omega
  have hrootIdsne : (ns.filter
      (fun n => ¬ (ns.flatMap (fun x => x.children)).contains n.id)).map (·.id) ≠ [] := by
    intro h
    have hx := List.mem_map_of_mem (fun x => x.id) hmroot
    rw [h] at hx
    cases hx
  obtain ⟨b, hb⟩ := firstMaxBy_isSome (nodeCostOrZero ns) _ hrootIdsne
  obtain ⟨hbmem, hbmax⟩ := firstMaxBy_mem_max (nodeCostOrZero ns) _ b hb
  have hsorthead : (sortCostDesc ((ns.filter
      (fun n => ¬ (ns.flatMap (fun x => x.children)).contains n.id)).map
      (fun n => (n.id, nodeCostOrZero ns n.id)))).head? =
        some (b, nodeCostOrZero ns b) := by
    rw [hpair, sortCostDesc_head_eq_firstMaxBy, hb]
    rfl
  obtain ⟨tl, htl⟩ : ∃ tl, sortCostDesc ((ns.filter
      (fun n => ¬ (ns.flatMap (fun x => x.children)).contains n.id)).map
      (fun n => (n.id, nodeCostOrZero ns n.id))) = (b, nodeCostOrZero ns b) :: tl := by
    rcases hsd : sortCostDesc ((ns.filter
        (fun n => ¬ (ns.flatMap (fun x => x.children)).contains n.id)).map
        (fun n => (n.id, nodeCostOrZero ns n.id))) with _ | ⟨hd, tl⟩
    · rw [hsd] at hsorthead
      cases hsorthead
    · rw [hsd] at hsorthead
      have hhd : hd = (b, nodeCostOrZero ns b) := by simpa using hsorthead
      exact ⟨tl, by rw [hsd, hhd]⟩
  have hmc : markCriticalPath ns =
      ns.map (markFun (markPathIds ns (nodeCostOrZero ns) ns.length b)) := by
    rw [hunf, htl]
  obtain ⟨nb, hnbfilter, hnbid⟩ := List.mem_map.mp hbmem
  have hnbmem : nb ∈ ns := ((mem_rootNodes_iff ns nb).mp hnbfilter).1
  obtain ⟨ph, pc, pl, plt⟩ := markPathIds_spec ns (nodeCostOrZero ns) hnd hcm hcg
    ns.length nb hnbmem (cntAbove_le_length ns nb.id)
  rw [hnbid] at ph pc pl plt
  rw [hccost] at ph pc pl plt hmc
  have hplan2 : (parseExplainJSON json c0).1.planNodes =
      ns.map (markFun (markPathIds ns (ccost ns) ns.length b)) :=
    hplan.trans hmc
  rw [hplan2]
  refine ⟨markPathIds ns (ccost ns) ns.length b, ?_, ?_⟩
  · refine ⟨?_, ?_, ?_, ?_, ?_⟩
    · intro h
      rw [h] at ph
      cases ph
    · intro h hh
      rw [ph] at hh
      cases hh
      constructor
      · rw [isRootId_map_markFun]
        exact (isRootId_iff ns b).mpr hbmem
      · intro r hr
        rw [ccost_map_markFun]
        rw [isRootId_map_markFun] at hr
        have hle := hbmax r ((isRootId_iff ns r).mp hr)
        rwa [hccost] at hle
    · rw [ccost_map_markFun]
      refine List.Chain'.imp ?_ pc
      rintro a c ⟨m, hm, hid, hf⟩
      refine ⟨markFun (markPathIds ns (ccost ns) ns.length b) m,
        List.mem_map_of_mem _ hm, ?_, ?_⟩
      · rw [markFun_id]
        exact hid
      · rw [markFun_children]
        exact hf
    · intro l hl
      obtain ⟨m, hm, hid, hch⟩ := pl l hl
      refine ⟨markFun (markPathIds ns (ccost ns) ns.length b) m,
        List.mem_map_of_mem _ hm, ?_, ?_⟩
      · rw [markFun_id]
        exact hid
      · rw [markFun_children]
        exact hch
    · exact chain_lt_nodup plt
  · intro n hn
    obtain ⟨n0, hn0, rfl⟩ := List.mem_map.mp hn
    rw [markFun_id]
    constructor
    · intro hmarked
      by_contra hnot
      have heq : markFun (markPathIds ns (ccost ns) ns.length b) n0 = n0 := by
        unfold markFun
        rw [if_neg (by simpa using hnot)]
      rw [heq] at hmarked
      rw [hunm n0 hn0] at hmarked
      cases hmarked
    · intro hpmem
      have heq : markFun (markPathIds ns (ccost ns) ns.length b) n0 =
          { n0 with isCriticalPath := true } := by
        unfold markFun
        rw [if_pos (by simpa using hpmem)]
      rw [heq]

/-- C2 witness: the greedy-marking theorem applied to the
cheap-table/expensive-table join example, whose three nodes all carry
nonnegative numeric costs. -/
theorem critical_path_is_greedy_witness :
    (parseExplainJSON exCP 0).1.planNodes ≠ [] ∧
    (∀ n ∈ (parseExplainJSON exCP 0).1.planNodes,
      ∃ q, n.cost = JSNum.num q ∧ 0 ≤ q) ∧
    ∃ p, GreedyPath (parseExplainJSON exCP 0).1.planNodes p ∧
      ∀ n ∈ (parseExplainJSON exCP 0).1.planNodes,
        (n.isCriticalPath = true ↔ n.id ∈ p) := by
  have hc : ∀ n ∈ (parseExplainJSON exCP 0).1.planNodes,
      ∃ q, n.cost = JSNum.num q ∧ 0 ≤ q := by
    intro n hn
    have hcosts : (parseExplainJSON exCP 0).1.planNodes.map (·.cost) =
        [JSNum.num 501, JSNum.num 1, JSNum.num 500] := by decide
    have hmem : n.cost ∈ [JSNum.num 501, JSNum.num 1, JSNum.num 500] := by
      rw [← hcosts]
      exact List.mem_map_of_mem _ hn
    simp only [List.mem_cons, List.not_mem_nil, or_false] at hmem
    rcases hmem with h | h | h
    · exact ⟨501, h, by norm_num⟩
    · exact ⟨1, h, by norm_num⟩
    · exact ⟨500, h, by norm_num⟩
  exact ⟨by decide, hc, critical_path_is_greedy exCP 0 (by decide) hc⟩

/-! ## Layout machinery (claims C3 and C9) -/

lemma posOf_cons_self (i : ℕ) (x y : ℚ) (pos : List (ℕ × ℚ × ℚ)) :
    posOf ((i, x, y) :: pos) i = some (x, y) := by
  unfold posOf
  rw [List.find?_cons_of_pos _ (by simp)]
  rfl

lemma posOf_append_not_mem (new pos : List (ℕ × ℚ × ℚ)) (i : ℕ)
    (h : ∀ p ∈ new, p.1 ≠ i) :
    posOf (new ++ pos) i = posOf pos i := by
  induction new with
  | nil => rfl
  | cons p rest IH =>
    rw [List.cons_append]
    have hp : p.1 ≠ i := h p (List.mem_cons_self _ _)
    unfold posOf
    rw [List.find?_cons_of_neg _ (by simp [hp])]
    exact IH (fun q hq => h q (List.mem_cons_of_mem _ hq))

lemma mem_layoutChildren_iff (edges : List EdgeRec) (t c : ℕ) :
    c ∈ layoutChildren edges t ↔ ∃ e ∈ edges, e.target = t ∧ e.source = c := by
  unfold layoutChildren
  simp only [List.mem_map, List.mem_filter, decide_eq_true_eq]
  constructor
  · rintro ⟨e, ⟨he, ht⟩, rfl⟩
    exact ⟨e, he, ht, rfl⟩
  · rintro ⟨e, he, ht, rfl⟩
    exact ⟨e, ⟨he, ht⟩, rfl⟩

lemma layoutChildren_lt {edges : List EdgeRec} (hlt : ∀ e ∈ edges, e.target < e.source)
    {t c : ℕ} (hc : c ∈ layoutChildren edges t) : t < c := by
  obtain ⟨e, he, ht, hs⟩ := (mem_layoutChildren_iff edges t c).mp hc
  have := hlt e he
  omega

lemma layoutChildren_mem_ids {edges : List EdgeRec} {ids : List ℕ}
    (hsm : ∀ e ∈ edges, e.source ∈ ids)
    {t c : ℕ} (hc : c ∈ layoutChildren edges t) : c ∈ ids := by
  obtain ⟨e, he, _, hs⟩ := (mem_layoutChildren_iff edges t c).mp hc
  exact hs ▸ hsm e he

lemma src_nodup_target_eq (edges : List EdgeRec) (hsrc : (edges.map (·.source)).Nodup) :
    ∀ e1 ∈ edges, ∀ e2 ∈ edges, e1.source = e2.source → e1.target = e2.target := by
  intro e1 h1 e2 h2 hs
  rw [List.inj_on_of_nodup_map hsrc h1 h2 hs]

lemma uniqueParent {edges : List EdgeRec} (hsrc : (edges.map (·.source)).Nodup)
    {c t t' : ℕ} (h1 : c ∈ layoutChildren edges t) (h2 : c ∈ layoutChildren edges t') :
    t = t' := by
  obtain ⟨e1, he1, ht1, hs1⟩ := (mem_layoutChildren_iff edges t c).mp h1
  obtain ⟨e2, he2, ht2, hs2⟩ := (mem_layoutChildren_iff edges t' c).mp h2
  have := src_nodup_target_eq edges hsrc e1 he1 e2 he2 (by rw [hs1, hs2])
  omega

lemma ReachCM.trans {cm : ℕ → List ℕ} {a b d : ℕ}
    (h1 : ReachCM cm a b) (h2 : ReachCM cm b d) : ReachCM cm a d := by
  revert d
  induction h1 with
  | refl _ => intro d h2; exact h2
  | step hc _ IH => intro d h2; exact ReachCM.step hc (IH h2)

lemma ReachCM.le {cm : ℕ → List ℕ} (hstep : ∀ t c, c ∈ cm t → t < c)
    {t d : ℕ} (h : ReachCM cm t d) : t ≤ d := by
  induction h with
  | refl _ => exact le_refl _
  | step hc _ IH => exact le_of_lt (lt_of_lt_of_le (hstep _ _ hc) IH)

lemma ReachCM.unfold_iff {cm : ℕ → List ℕ} {t d : ℕ} :
    ReachCM cm t d ↔ d = t ∨ ∃ c ∈ cm t, ReachCM cm c d := by
  constructor
  · intro h
    cases h with
    | refl _ => exact Or.inl rfl
    | step hc h => exact Or.inr ⟨_, hc, h⟩
  · rintro (rfl | ⟨c, hc, h⟩)
    · exact ReachCM.refl _
    · exact ReachCM.step hc h

lemma ReachCM.last {cm : ℕ → List ℕ} {t d : ℕ} (h : ReachCM cm t d) :
    t = d ∨ ∃ p, d ∈ cm p ∧ ReachCM cm t p := by
  induction h with
  | refl _ => exact Or.inl rfl
  | step hc _ IH =>
    rcases IH with rfl | ⟨p, hp, hr⟩
    · exact Or.inr ⟨_, hc, ReachCM.refl _⟩
    · exact Or.inr ⟨p, hp, ReachCM.step hc hr⟩

lemma ReachCM.comparable {cm : ℕ → List ℕ}
    (huniq : ∀ {c t t' : ℕ}, c ∈ cm t → c ∈ cm t' → t = t')
    {t t' d : ℕ} (h1 : ReachCM cm t d) (h2 : ReachCM cm t' d) :
    ReachCM cm t t' ∨ ReachCM cm t' t := by
  revert t'
  induction h1 with
  | refl _ => intro t' h2; exact Or.inr h2
  | step hc _ IH =>
    intro t' h2
    rcases IH h2 with hcase | hcase
    · exact Or.inl (ReachCM.step hc hcase)
    · rcases hcase.last with rfl | ⟨p, hp, hr⟩
      · exact Or.inl (ReachCM.step hc (ReachCM.refl _))
      · exact Or.inr (huniq hp hc ▸ hr)

lemma sibling_not_reach {cm : ℕ → List ℕ}
    (huniq : ∀ {c t t' : ℕ}, c ∈ cm t → c ∈ cm t' → t = t')
    (hstep : ∀ t c, c ∈ cm t → t < c)
    {t c1 c2 : ℕ} (hc1 : c1 ∈ cm t) (hc2 : c2 ∈ cm t) (hne : c1 ≠ c2) :
    ¬ ReachCM cm c1 c2 := by
  intro h
  rcases h.last with heq | ⟨p, hp, hr⟩
  · exact hne heq
  · have hpt : p = t := huniq hp hc2
    rw [hpt] at hr
    have h1 := ReachCM.le hstep hr
    have h2 := hstep t c1 hc1
    omega

lemma reach_disjoint {cm : ℕ → List ℕ}
    (huniq : ∀ {c t t' : ℕ}, c ∈ cm t → c ∈ cm t' → t = t')
    {c1 c2 : ℕ} (h1 : ¬ ReachCM cm c1 c2) (h2 : ¬ ReachCM cm c2 c1) :
    ∀ d, ReachCM cm c1 d → ReachCM cm c2 d → False := by
  intro d r1 r2
  rcases ReachCM.comparable huniq r1 r2 with h | h
  · exact h1 h
  · exact h2 h

lemma ChildrenPlaced.mono_pos {w : ℕ → ℚ} {pos new : List (ℕ × ℚ × ℚ)} :
    ∀ {l : List ℕ} {cx y : ℚ},
    ChildrenPlaced w pos l cx y → (∀ c ∈ l, ∀ p ∈ new, p.1 ≠ c) →
    ChildrenPlaced w (new ++ pos) l cx y := by
  intro l
  induction l with
  | nil => intro cx y _ _; trivial
  | cons c rest IH =>
    intro cx y h hdis
    obtain ⟨h1, h2⟩ := h
    refine ⟨?_, IH h2 ?_⟩
    · rw [posOf_append_not_mem new pos c (fun p hp => hdis c (List.mem_cons_self _ _) p hp)]
      exact h1
    · intro c' hc' p hp
      exact hdis c' (List.mem_cons_of_mem _ hc') p hp

lemma ChildrenPlaced.mem {w : ℕ → ℚ} {pos : List (ℕ × ℚ × ℚ)}
    (hw : ∀ c, nodeWidth ≤ w c) :
    ∀ {l : List ℕ} {cx y : ℚ}, ChildrenPlaced w pos l cx y →
    ∀ c ∈ l, ∃ xc, posOf pos c = some (xc, y) ∧ cx + w c / 2 - nodeWidth / 2 ≤ xc := by
  intro l
  induction l with
  | nil => intro cx y _ c hc; cases hc
  | cons a rest IH =>
    intro cx y h c hc
    obtain ⟨h1, h2⟩ := h
    rcases List.mem_cons.mp hc with rfl | hc
    · exact ⟨_, h1, le_refl _⟩
    · obtain ⟨xc, hxc, hle⟩ := IH h2 c hc
      refine ⟨xc, hxc, ?_⟩
      have hwa := hw a
      have hnw : (0:ℚ) < nodeWidth := by norm_num [nodeWidth]
      have hgap : (0:ℚ) < horizontalGap := by norm_num [horizontalGap]
      linarith

lemma ChildrenPlaced.pairwise {w : ℕ → ℚ} {pos : List (ℕ × ℚ × ℚ)}
    (hw : ∀ c, nodeWidth ≤ w c) :
    ∀ {l : List ℕ} {cx y : ℚ}, ChildrenPlaced w pos l cx y →
    List.Pairwise (fun a b => ∀ pa pb : ℚ × ℚ,
      posOf pos a = some pa → posOf pos b = some pb →
      pa.1 + nodeWidth + horizontalGap ≤ pb.1 ∧ pa.2 = pb.2) l := by
  intro l
  induction l with
  | nil => intro cx y _; exact List.Pairwise.nil
  | cons a rest IH =>
    intro cx y h
    obtain ⟨h1, h2⟩ := h
    refine List.Pairwise.cons ?_ (IH h2)
    intro b hb pa pb hpa hpb
    obtain ⟨xb, hxb, hle⟩ := ChildrenPlaced.mem hw h2 b hb
    rw [h1] at hpa
    cases hpa
    rw [hxb] at hpb
    cases hpb
    have hwa := hw a
    have hwb := hw b
    constructor
    · simp only []
      linarith
    · rfl

lemma calcWidth_ge (cm : ℕ → List ℕ) : ∀ (fuel i : ℕ), nodeWidth ≤ calcWidth cm fuel i := by
  intro fuel i
  cases fuel with
  | zero => exact le_refl _
  | succ fuel =>
    simp only [calcWidth]
    by_cases h : cm i = []
    · rw [if_pos h]
    · rw [if_neg h]
      exact le_max_left _ _

lemma cntIds_pos {ids : List ℕ} {i : ℕ} (h : i ∈ ids) : 1 ≤ cntIds ids i := by
  have hmem : i ∈ ids.filter (fun x => i ≤ x) := by
    rw [List.mem_filter]
    exact ⟨h, by simp⟩
  have := List.length_pos.mpr (List.ne_nil_of_mem hmem)
  unfold cntIds
  omega

lemma cntIds_lt {ids : List ℕ} {i j : ℕ} (h : i ∈ ids) (hij : i < j) :
    cntIds ids j < cntIds ids i :=
  filter_ge_length_lt hij h

lemma cntIds_le (ids : List ℕ) (i : ℕ) : cntIds ids i ≤ ids.length :=
  List.length_filter_le _ _

/-- The `children.forEach` loop: assuming the recursive call at the
remaining fuel behaves (the outer induction hypothesis), the loop places
each child of the list at the centre of its reserved span one row below,
extends the positioned set by exactly the children's subtrees, only
prepends position entries for subtree members, and lays out each child's
subtree. -/
lemma positionChildren_spec (ids : List ℕ) (cm : ℕ → List ℕ) (w : ℕ → ℚ) (fuel : ℕ)
    (hgo : ∀ (c : ℕ) (x y : ℚ) (st : LayoutState), c ∈ ids → cntIds ids c ≤ fuel →
      (∀ d, ReachCM cm c d → d ∉ st.positioned) →
      (∀ d, d ∈ (positionNode ids cm w fuel c x y st).positioned ↔
        (ReachCM cm c d ∨ d ∈ st.positioned)) ∧
      (∃ new, (positionNode ids cm w fuel c x y st).pos = new ++ st.pos ∧
        ∀ p ∈ new, ReachCM cm c p.1) ∧
      posOf (positionNode ids cm w fuel c x y st).pos c = some (x, y) ∧
      SubtreeLaid cm w (positionNode ids cm w fuel c x y st).pos c) :
    ∀ (l : List ℕ) (cx y : ℚ) (st : LayoutState),
      (∀ c ∈ l, c ∈ ids ∧ cntIds ids c ≤ fuel) →
      (∀ c ∈ l, ∀ d, ReachCM cm c d → d ∉ st.positioned) →
      List.Pairwise (fun c1 c2 => ∀ d, ReachCM cm c1 d → ReachCM cm c2 d → False) l →
      (∀ d, d ∈ (positionChildren w (positionNode ids cm w fuel) l cx y st).positioned ↔
        ((∃ c ∈ l, ReachCM cm c d) ∨ d ∈ st.positioned)) ∧
      (∃ new, (positionChildren w (positionNode ids cm w fuel) l cx y st).pos =
          new ++ st.pos ∧ ∀ p ∈ new, ∃ c ∈ l, ReachCM cm c p.1) ∧
      ChildrenPlaced w (positionChildren w (positionNode ids cm w fuel) l cx y st).pos
        l cx (y + nodeHeight + verticalGap) ∧
      (∀ c ∈ l, SubtreeLaid cm w
        (positionChildren w (positionNode ids cm w fuel) l cx y st).pos c) := by
  intro l
  induction l with
  | nil =>
    intro cx y st hcond hdisj hpw
    refine ⟨?_, ⟨[], rfl, ?_⟩, trivial, ?_⟩
    · intro d
      simp [positionChildren]
    · intro p hp
      cases hp
    · intro c hc
      cases hc
  | cons c rest IH =>
    intro cx y st hcond hdisj hpw
    rw [List.pairwise_cons] at hpw
    obtain ⟨hhead, hpw'⟩ := hpw
    obtain ⟨hcids, hccnt⟩ := hcond c (List.mem_cons_self _ _)
    have hdisjc := hdisj c (List.mem_cons_self _ _)
    obtain ⟨A1, ⟨new1, hpos1, hnew1⟩, C1, D1⟩ :=
      hgo c (cx + w c / 2 - nodeWidth / 2) (y + nodeHeight + verticalGap) st
        hcids hccnt hdisjc
    have hunf : positionChildren w (positionNode ids cm w fuel) (c :: rest) cx y st =
        positionChildren w (positionNode ids cm w fuel) rest (cx + w c + horizontalGap) y
          (positionNode ids cm w fuel c (cx + w c / 2 - nodeWidth / 2)
            (y + nodeHeight + verticalGap) st) := rfl
    have hrest := IH (cx + w c + horizontalGap) y
      (positionNode ids cm w fuel c (cx + w c / 2 - nodeWidth / 2)
        (y + nodeHeight + verticalGap) st)
      (fun c' hc' => hcond c' (List.mem_cons_of_mem _ hc'))
      (by
        intro c' hc' d hr
        rw [A1 d]
        rintro (hcd | hst)
        · exact hhead c' hc' d hcd hr
        · exact hdisj c' (List.mem_cons_of_mem _ hc') d hr hst)
      hpw'
    obtain ⟨A2, ⟨new2, hpos2, hnew2⟩, C2, D2⟩ := hrest
    have hnew2ne : ∀ p ∈ new2, ∀ d, ReachCM cm c d → p.1 ≠ d := by
      intro p hp d hr he
      obtain ⟨c', hc', hr'⟩ := hnew2 p hp
      exact hhead c' hc' d hr (he ▸ hr')
    rw [hunf]
    refine ⟨?_, ?_, ?_, ?_⟩
    · intro d
      rw [A2 d, A1 d]
      constructor
      · rintro (⟨c', hc', hr⟩ | hcd | hst)
        · exact Or.inl ⟨c', List.mem_cons_of_mem _ hc', hr⟩
        · exact Or.inl ⟨c, List.mem_cons_self _ _, hcd⟩
        · exact Or.inr hst
      · rintro (⟨c', hc', hr⟩ | hst)
        · rcases List.mem_cons.mp hc' with rfl | hc'
          · exact Or.inr (Or.inl hr)
          · exact Or.inl ⟨c', hc', hr⟩
        · exact Or.inr (Or.inr hst)
    · refine ⟨new2 ++ new1, ?_, ?_⟩
      · rw [hpos2, hpos1, List.append_assoc]
      · intro p hp
        rcases List.mem_append.mp hp with hp | hp
        · obtain ⟨c', hc', hr⟩ := hnew2 p hp
          exact ⟨c', List.mem_cons_of_mem _ hc', hr⟩
        · exact ⟨c, List.mem_cons_self _ _, hnew1 p hp⟩
    · refine ⟨?_, C2⟩
      rw [hpos2]
      rw [posOf_append_not_mem new2 _ c (fun p hp => hnew2ne p hp c (ReachCM.refl _))]
      exact C1
    · intro c0 hc0
      rcases List.mem_cons.mp hc0 with rfl | hc0
      · intro t hreach xt yt hpos
        rw [hpos2] at hpos
        rw [posOf_append_not_mem new2 _ t (fun p hp => hnew2ne p hp t hreach)] at hpos
        have hcp := D1 t hreach xt yt hpos
        rw [hpos2]
        apply ChildrenPlaced.mono_pos hcp
        intro c' hc' p hp
        exact hnew2ne p hp c' (ReachCM.trans hreach (ReachCM.step hc' (ReachCM.refl _)))
      · exact D2 c0 hc0

/-- `positionNode` on a well-formed edge set: starting at an unvisited
subtree, it extends the positioned set by exactly the subtree of the start
node, prepends position entries only for subtree members, assigns the
start node the given coordinates, and lays the whole subtree out (each
node's children centred one row below it). -/
lemma positionNode_spec (ids : List ℕ) (edges : List EdgeRec) (w : ℕ → ℚ)
    (hsm : ∀ e ∈ edges, e.source ∈ ids)
    (hlt : ∀ e ∈ edges, e.target < e.source)
    (hsrc : (edges.map (·.source)).Nodup) :
    ∀ (fuel : ℕ) (nodeId : ℕ) (x y : ℚ) (st : LayoutState),
      nodeId ∈ ids → cntIds ids nodeId ≤ fuel →
      (∀ d, ReachCM (layoutChildren edges) nodeId d → d ∉ st.positioned) →
      (∀ d, d ∈ (positionNode ids (layoutChildren edges) w fuel nodeId x y st).positioned ↔
        (ReachCM (layoutChildren edges) nodeId d ∨ d ∈ st.positioned)) ∧
      (∃ new, (positionNode ids (layoutChildren edges) w fuel nodeId x y st).pos =
          new ++ st.pos ∧ ∀ p ∈ new, ReachCM (layoutChildren edges) nodeId p.1) ∧
      posOf (positionNode ids (layoutChildren edges) w fuel nodeId x y st).pos nodeId =
        some (x, y) ∧
      SubtreeLaid (layoutChildren edges) w
        (positionNode ids (layoutChildren edges) w fuel nodeId x y st).pos nodeId := by
  have hstep : ∀ t c, c ∈ layoutChildren edges t → t < c :=
    fun t c h => layoutChildren_lt hlt h
  have huniq : ∀ {c t t' : ℕ}, c ∈ layoutChildren edges t →
      c ∈ layoutChildren edges t' → t = t' :=
    fun h1 h2 => uniqueParent hsrc h1 h2
  intro fuel
  induction fuel with
  | zero =>
    intro nodeId x y st hmem hcnt
    exact absurd hcnt (by have := cntIds_pos hmem; omega)
  | succ fuel IH =>
    intro nodeId x y st hmem hcnt hdisj
    have hnot : nodeId ∉ st.positioned := hdisj nodeId (ReachCM.refl _)
    have hunf : positionNode ids (layoutChildren edges) w (fuel + 1) nodeId x y st =
        (if nodeId ∈ st.positioned then st
         else if nodeId ∈ ids then
           (if layoutChildren edges nodeId = [] then
             ({ positioned := nodeId :: st.positioned,
                pos := (nodeId, x, y) :: st.pos } : LayoutState)
            else positionChildren w (positionNode ids (layoutChildren edges) w fuel)
              (layoutChildren edges nodeId)
              (x + (nodeWidth - totalW w (layoutChildren edges nodeId)) / 2) y
              { positioned := nodeId :: st.positioned,
                pos := (nodeId, x, y) :: st.pos })
         else { positioned := nodeId :: st.positioned, pos := st.pos }) := rfl
    rw [hunf, if_neg hnot, if_pos hmem]
    by_cases hch : layoutChildren edges nodeId = []
    · rw [if_pos hch]
      refine ⟨?_, ⟨[(nodeId, x, y)], rfl, ?_⟩, posOf_cons_self _ _ _ _, ?_⟩
      · intro d
        constructor
        · intro hd
          rcases List.mem_cons.mp hd with rfl | hd
          · exact Or.inl (ReachCM.refl _)
          · exact Or.inr hd
        · rintro (hr | hd)
          · rcases ReachCM.unfold_iff.mp hr with rfl | ⟨c, hc, _⟩
            · exact List.mem_cons_self _ _
            · rw [hch] at hc
              cases hc
          · exact List.mem_cons_of_mem _ hd
      · intro p hp
        rcases List.mem_cons.mp hp with rfl | hp
        · exact ReachCM.refl _
        · cases hp
      · intro t hreach xt yt hpos
        rcases ReachCM.unfold_iff.mp hreach with rfl | ⟨c, hc, _⟩
        · rw [hch]
          trivial
        · rw [hch] at hc
          cases hc
    · rw [if_neg hch]
      have hpc := positionChildren_spec ids (layoutChildren edges) w fuel
        (fun c x' y' st' hc hcnt' hdisj' => IH c x' y' st' hc hcnt' hdisj')
        (layoutChildren edges nodeId)
        (x + (nodeWidth - totalW w (layoutChildren edges nodeId)) / 2) y
        { positioned := nodeId :: st.positioned, pos := (nodeId, x, y) :: st.pos }
        (by
          intro c hc
          refine ⟨layoutChildren_mem_ids hsm hc, ?_⟩
          have h1 := cntIds_lt hmem (hstep nodeId c hc)
          omega)
        (by
          intro c hc d hr
          intro hd
          rcases List.mem_cons.mp hd with rfl | hd
          · have h1 := ReachCM.le hstep hr
            have h2 := hstep d c hc
            omega
          · exact hdisj d (ReachCM.step hc hr) hd)
        (by
          have hnd : (layoutChildren edges nodeId).Nodup := by
            unfold layoutChildren
            exact ((List.filter_sublist edges).map (·.source)).nodup hsrc
          refine List.Pairwise.imp_of_mem ?_ hnd
          intro c1 c2 hc1 hc2 hne
          exact reach_disjoint huniq
            (sibling_not_reach huniq hstep hc1 hc2 hne)
            (sibling_not_reach huniq hstep hc2 hc1 (Ne.symm hne)))
      obtain ⟨A', ⟨new', hpos', hnew'⟩, C', D'⟩ := hpc
      have hnewne : ∀ p ∈ new', p.1 ≠ nodeId := by
        intro p hp he
        obtain ⟨c, hc, hr⟩ := hnew' p hp
        have h1 := ReachCM.le hstep hr
        have h2 := hstep nodeId c hc
        omega
      have hC : posOf (positionChildren w (positionNode ids (layoutChildren edges) w fuel)
          (layoutChildren edges nodeId)
          (x + (nodeWidth - totalW w (layoutChildren edges nodeId)) / 2) y
          { positioned := nodeId :: st.positioned,
            pos := (nodeId, x, y) :: st.pos }).pos nodeId = some (x, y) := by
        rw [hpos', posOf_append_not_mem new' _ nodeId hnewne]
        exact posOf_cons_self _ _ _ _
      refine ⟨?_, ?_, ?_, ?_⟩
      · intro d
        rw [A' d]
        constructor
        · rintro (⟨c, hc, hr⟩ | hd)
          · exact Or.inl (ReachCM.step hc hr)
          · rcases List.mem_cons.mp hd with rfl | hd
            · exact Or.inl (ReachCM.refl _)
            · exact Or.inr hd
        · rintro (hr | hd)
          · rcases ReachCM.unfold_iff.mp hr with rfl | ⟨c, hc, hr'⟩
            · exact Or.inr (List.mem_cons_self _ _)
            · exact Or.inl ⟨c, hc, hr'⟩
          · exact Or.inr (List.mem_cons_of_mem _ hd)
      · refine ⟨new' ++ [(nodeId, x, y)], ?_, ?_⟩
        · rw [hpos', List.append_assoc]
          rfl
        · intro p hp
          rcases List.mem_append.mp hp with hp | hp
          · obtain ⟨c, hc, hr⟩ := hnew' p hp
            exact ReachCM.step hc hr
          · rcases List.mem_cons.mp hp with rfl | hp
            · exact ReachCM.refl _
            · cases hp
      · exact hC
      · intro t hreach xt yt hpos
        rcases ReachCM.unfold_iff.mp hreach with rfl | ⟨c, hc, hr⟩
        · rw [hC] at hpos
          injection hpos with hpos
          injection hpos with h1 h2
          rw [← h1, ← h2]
          exact C'
        · exact D' c hc t hr xt yt hpos

lemma root_not_reach (edges : List EdgeRec) {r r' : ℕ} (hne : r ≠ r')
    (hnp' : hasParent edges r' = false) : ¬ ReachCM (layoutChildren edges) r r' := by
  intro h
  rcases h.last with heq | ⟨p, hp, _⟩
  · exact hne heq
  · obtain ⟨e, he, _, hs⟩ := (mem_layoutChildren_iff edges p r').mp hp
    have hpar : hasParent edges r' = true := by
      unfold hasParent
      rw [List.any_eq_true]
      exact ⟨e, he, by simp [hs]⟩
    rw [hpar] at hnp'
    cases hnp'

/-- A positioned node's whole subtree is positioned. -/
lemma reach_has_pos {cm : ℕ → List ℕ} {w : ℕ → ℚ} {pos : List (ℕ × ℚ × ℚ)}
    (hw : ∀ c, nodeWidth ≤ w c) :
    ∀ {r t : ℕ}, ReachCM cm r t → SubtreeLaid cm w pos r →
    (∃ x y, posOf pos r = some (x, y)) → ∃ x y, posOf pos t = some (x, y) := by
  intro r t hreach
  induction hreach with
  | refl _ => intro _ h; exact h
  | step hc _ IH =>
    intro hsl hpos
    obtain ⟨x, y, hxy⟩ := hpos
    have hcp := hsl _ (ReachCM.refl _) x y hxy
    obtain ⟨xc, hxc, _⟩ := ChildrenPlaced.mem hw hcp _ hc
    exact IH (fun t' ht' => hsl t' (ReachCM.step hc ht')) ⟨xc, _, hxc⟩

/-- Every node's parent chain ascends (with strictly decreasing ids) to
a parentless node: each id is in some root's subtree. -/
lemma exists_root_reach (ids : List ℕ) (edges : List EdgeRec)
    (htm : ∀ e ∈ edges, e.target ∈ ids)
    (hlt : ∀ e ∈ edges, e.target < e.source) :
    ∀ i ∈ ids, ∃ r ∈ ids.filter (fun i => ¬ hasParent edges i),
      ReachCM (layoutChildren edges) r i := by
  intro i
  induction i using Nat.strong_induction_on with
  | _ i IH2 =>
    intro hi
    by_cases hp : hasParent edges i = true
    · obtain ⟨e, he, hsrceq⟩ := List.any_eq_true.mp hp
      have hsrceq' : e.source = i := by simpa using hsrceq
      have htlt : e.target < i := by
        have := hlt e he
        omega
      obtain ⟨r, hr, hreach⟩ := IH2 e.target htlt (htm e he)
      refine ⟨r, hr, ReachCM.trans hreach (ReachCM.step ?_ (ReachCM.refl _))⟩
      exact (mem_layoutChildren_iff edges e.target i).mpr ⟨e, he, rfl, hsrceq'⟩
    · refine ⟨i, ?_, ReachCM.refl _⟩
      rw [List.mem_filter]
      exact ⟨hi, by simpa using hp⟩

/-- The orphan pass does nothing when every node was already positioned. -/
lemma orphan_fold_id (positionedS : List ℕ) (rx : ℚ) :
    ∀ (l : List ℕ) (acc : List (ℕ × ℚ × ℚ) × ℚ), (∀ i ∈ l, i ∈ positionedS) →
      (l.foldl (fun acc i => if i ∈ positionedS then acc
        else ((i, rx, acc.2) :: acc.1, acc.2 + nodeHeight + verticalGap)) acc) = acc := by
  intro l
  induction l with
  | nil => intro acc _; rfl
  | cons i rest IH =>
    intro acc h
    rw [List.foldl_cons, if_pos (h i (List.mem_cons_self _ _))]
    exact IH acc (fun j hj => h j (List.mem_cons_of_mem _ hj))

/-- The `roots.forEach` positioning loop: with pairwise-distinct parentless
start nodes whose subtrees avoid the already-positioned set, it positions
every listed root (at y = 0) and lays out each root's subtree. -/
lemma rootsFold_spec (ids : List ℕ) (edges : List EdgeRec) (w : ℕ → ℚ)
    (hsm : ∀ e ∈ edges, e.source ∈ ids)
    (hlt : ∀ e ∈ edges, e.target < e.source)
    (hsrc : (edges.map (·.source)).Nodup) :
    ∀ (rs : List ℕ) (acc : LayoutState × ℚ),
      (∀ r ∈ rs, r ∈ ids) →
      (∀ r ∈ rs, hasParent edges r = false) →
      rs.Nodup →
      (∀ r ∈ rs, ∀ d, ReachCM (layoutChildren edges) r d → d ∉ acc.1.positioned) →
      (∀ d, d ∈ (rs.foldl (rootsStep ids edges w) acc).1.positioned ↔
        ((∃ r ∈ rs, ReachCM (layoutChildren edges) r d) ∨ d ∈ acc.1.positioned)) ∧
      (∃ new, (rs.foldl (rootsStep ids edges w) acc).1.pos = new ++ acc.1.pos ∧
        ∀ p ∈ new, ∃ r ∈ rs, ReachCM (layoutChildren edges) r p.1) ∧
      (∀ r ∈ rs, ∃ xr, posOf (rs.foldl (rootsStep ids edges w) acc).1.pos r =
        some (xr, 0)) ∧
      (∀ r ∈ rs, SubtreeLaid (layoutChildren edges) w
        (rs.foldl (rootsStep ids edges w) acc).1.pos r) := by
  have hstep : ∀ t c, c ∈ layoutChildren edges t → t < c :=
    fun t c h => layoutChildren_lt hlt h
  have huniq : ∀ {c t t' : ℕ}, c ∈ layoutChildren edges t →
      c ∈ layoutChildren edges t' → t = t' :=
    fun h1 h2 => uniqueParent hsrc h1 h2
  intro rs
  induction rs with
  | nil =>
    intro acc _ _ _ _
    refine ⟨?_, ⟨[], rfl, ?_⟩, ?_, ?_⟩
    · intro d
      simp
    · intro p hp
      cases hp
    · intro r hr
      cases hr
    · intro r hr
      cases hr
  | cons r rs' IH =>
    intro acc hmem hroot hnodup hdisj
    rw [List.nodup_cons] at hnodup
    obtain ⟨hrnotin, hnodup'⟩ := hnodup
    obtain ⟨A1, ⟨new1, hpos1, hnew1⟩, C1, D1⟩ :=
      positionNode_spec ids edges w hsm hlt hsrc (ids.length + 1) r acc.2 0 acc.1
        (hmem r (List.mem_cons_self _ _))
        (by have := cntIds_le ids r; omega)
        (hdisj r (List.mem_cons_self _ _))
    have hsibdis : ∀ r' ∈ rs', ∀ d, ReachCM (layoutChildren edges) r' d →
        ReachCM (layoutChildren edges) r d → False := by
      intro r' hr' d h1 h2
      have hne : r ≠ r' := fun he => hrnotin (he ▸ hr')
      exact reach_disjoint huniq
        (root_not_reach edges hne (hroot r' (List.mem_cons_of_mem _ hr')))
        (root_not_reach edges (Ne.symm hne) (hroot r (List.mem_cons_self _ _)))
        d h2 h1
    have hfold : (r :: rs').foldl (rootsStep ids edges w) acc =
        rs'.foldl (rootsStep ids edges w)
          (positionNode ids (layoutChildren edges) w (ids.length + 1) r acc.2 0 acc.1,
           acc.2 + w r + horizontalGap * 2) := rfl
    obtain ⟨A2, ⟨new2, hpos2, hnew2⟩, C2, D2⟩ := IH
      (positionNode ids (layoutChildren edges) w (ids.length + 1) r acc.2 0 acc.1,
       acc.2 + w r + horizontalGap * 2)
      (fun r' hr' => hmem r' (List.mem_cons_of_mem _ hr'))
      (fun r' hr' => hroot r' (List.mem_cons_of_mem _ hr'))
      hnodup'
      (by
        intro r' hr' d hr
        rw [A1 d]
        rintro (hrd | hacc)
        · exact hsibdis r' hr' d hr hrd
        · exact hdisj r' (List.mem_cons_of_mem _ hr') d hr hacc)
    have hnew2ne : ∀ p ∈ new2, ∀ d, ReachCM (layoutChildren edges) r d → p.1 ≠ d := by
      intro p hp d hr he
      obtain ⟨r', hr', hreach'⟩ := hnew2 p hp
      exact hsibdis r' hr' p.1 hreach' (he ▸ hr)
    rw [hfold]
    refine ⟨?_, ?_, ?_, ?_⟩
    · intro d
      rw [A2 d]
      constructor
      · rintro (⟨r', hr', hrd⟩ | hd)
        · exact Or.inl ⟨r', List.mem_cons_of_mem _ hr', hrd⟩
        · rw [A1 d] at hd
          rcases hd with hrd | hacc
          · exact Or.inl ⟨r, List.mem_cons_self _ _, hrd⟩
          · exact Or.inr hacc
      · rintro (⟨r', hr', hrd⟩ | hacc)
        · rcases List.mem_cons.mp hr' with rfl | hr'
          · exact Or.inr ((A1 d).mpr (Or.inl hrd))
          · exact Or.inl ⟨r', hr', hrd⟩
        · exact Or.inr ((A1 d).mpr (Or.inr hacc))
    · refine ⟨new2 ++ new1, ?_, ?_⟩
      · rw [hpos2, hpos1, List.append_assoc]
      · intro p hp
        rcases List.mem_append.mp hp with hp | hp
        · obtain ⟨r', hr', hreach'⟩ := hnew2 p hp
          exact ⟨r', List.mem_cons_of_mem _ hr', hreach'⟩
        · exact ⟨r, List.mem_cons_self _ _, hnew1 p hp⟩
    · intro r0 hr0
      rcases List.mem_cons.mp hr0 with rfl | hr0
      · refine ⟨acc.2, ?_⟩
        rw [hpos2, posOf_append_not_mem new2 _ r0
          (fun p hp => hnew2ne p hp r0 (ReachCM.refl _))]
        exact C1
      · exact C2 r0 hr0
    · intro r0 hr0
      rcases List.mem_cons.mp hr0 with rfl | hr0
      · intro t hreach xt yt hpos
        rw [hpos2] at hpos
        rw [posOf_append_not_mem new2 _ t (fun p hp => hnew2ne p hp t hreach)] at hpos
        have hcp := D1 t hreach xt yt hpos
        rw [hpos2]
        apply ChildrenPlaced.mono_pos hcp
        intro c' hc' p hp
        exact hnew2ne p hp c'
          (ReachCM.trans hreach (ReachCM.step hc' (ReachCM.refl _)))
      · exact D2 r0 hr0

/-- `applyLayout` on a well-formed graph: every node receives a position,
and every positioned node's children sit centred under it exactly one row
(node height plus vertical gap) below. -/
lemma applyLayout_spec (ids : List ℕ) (edges : List EdgeRec)
    (hnd : ids.Nodup)
    (hsm : ∀ e ∈ edges, e.source ∈ ids)
    (htm : ∀ e ∈ edges, e.target ∈ ids)
    (hlt : ∀ e ∈ edges, e.target < e.source)
    (hsrc : (edges.map (·.source)).Nodup) :
    (∀ i ∈ ids, ∃ x y, posOf (applyLayout ids edges) i = some (x, y)) ∧
    (∀ t ∈ ids, ∀ xt yt, posOf (applyLayout ids edges) t = some (xt, yt) →
      ChildrenPlaced (fun i => calcWidth (layoutChildren edges) (ids.length + 1) i)
        (applyLayout ids edges) (layoutChildren edges t)
        (xt + (nodeWidth - totalW
          (fun i => calcWidth (layoutChildren edges) (ids.length + 1) i)
          (layoutChildren edges t)) / 2)
        (yt + nodeHeight + verticalGap)) := by
  have hw : ∀ c, nodeWidth ≤ calcWidth (layoutChildren edges) (ids.length + 1) c :=
    fun c => calcWidth_ge (layoutChildren edges) (ids.length + 1) c
  obtain ⟨A, ⟨new, hposF, hnewF⟩, C, D⟩ := rootsFold_spec ids edges
    (fun i => calcWidth (layoutChildren edges) (ids.length + 1) i) hsm hlt hsrc
    (ids.filter (fun i => ¬ hasParent edges i)) (⟨[], []⟩, 0)
    (fun r hr => (List.mem_filter.mp hr).1)
    (fun r hr => by
      have := (List.mem_filter.mp hr).2
      simpa using this)
    (List.Nodup.filter _ hnd)
    (fun r _ d _ h => by cases h)
  have hall : ∀ i ∈ ids,
      i ∈ ((ids.filter (fun i => ¬ hasParent edges i)).foldl
        (rootsStep ids edges
          (fun i => calcWidth (layoutChildren edges) (ids.length + 1) i))
        (⟨[], []⟩, 0)).1.positioned := by
    intro i hi
    obtain ⟨r, hr, hreach⟩ := exists_root_reach ids edges htm hlt i hi
    exact (A i).mpr (Or.inl ⟨r, hr, hreach⟩)
  have hunf : applyLayout ids edges =
      ((ids.filter (fun i => ¬ hasParent edges i)).foldl
        (rootsStep ids edges
          (fun i => calcWidth (layoutChildren edges) (ids.length + 1) i))
        (⟨[], []⟩, 0)).1.pos := by
    show (ids.foldl (fun acc i =>
        if i ∈ ((ids.filter (fun i => ¬ hasParent edges i)).foldl
          (rootsStep ids edges
            (fun i => calcWidth (layoutChildren edges) (ids.length + 1) i))
          (⟨[], []⟩, 0)).1.positioned then acc
        else ((i, ((ids.filter (fun i => ¬ hasParent edges i)).foldl
          (rootsStep ids edges
            (fun i => calcWidth (layoutChildren edges) (ids.length + 1) i))
          (⟨[], []⟩, 0)).2, acc.2) :: acc.1,
          acc.2 + nodeHeight + verticalGap))
        (((ids.filter (fun i => ¬ hasParent edges i)).foldl
          (rootsStep ids edges
            (fun i => calcWidth (layoutChildren edges) (ids.length + 1) i))
          (⟨[], []⟩, 0)).1.pos, 0)).1 = _
    rw [orphan_fold_id _ _ ids _ hall]
  constructor
  · intro i hi
    obtain ⟨r, hr, hreach⟩ := exists_root_reach ids edges htm hlt i hi
    obtain ⟨xr, hxr⟩ := C r hr
    rw [hunf]
    exact reach_has_pos hw hreach (D r hr) ⟨xr, 0, hxr⟩
  · intro t ht xt yt hpos
    obtain ⟨r, hr, hreach⟩ := exists_root_reach ids edges htm hlt t ht
    rw [hunf] at hpos
    rw [hunf]
    exact D r hr t hreach xt yt hpos

/-- The layout correctness facts, transported to the parser's output:
every plan node id receives a position, and every node's incoming-edge
sources (its layout children) are placed centred under it one row below. -/
lemma parse_layout_spec (json : MySQLExplainJSON) (c0 : ℕ) :
    (∀ i ∈ (parseExplainJSON json c0).1.planNodes.map (·.id),
      ∃ x y, posOf (parseExplainJSON json c0).1.positions i = some (x, y)) ∧
    (∀ t ∈ (parseExplainJSON json c0).1.planNodes.map (·.id), ∀ xt yt,
      posOf (parseExplainJSON json c0).1.positions t = some (xt, yt) →
      ChildrenPlaced
        (fun i => calcWidth (layoutChildren (parseExplainJSON json c0).1.edges)
          (((parseExplainJSON json c0).1.planNodes.map (·.id)).length + 1) i)
        (parseExplainJSON json c0).1.positions
        (layoutChildren (parseExplainJSON json c0).1.edges t)
        (xt + (nodeWidth - totalW
          (fun i => calcWidth (layoutChildren (parseExplainJSON json c0).1.edges)
            (((parseExplainJSON json c0).1.planNodes.map (·.id)).length + 1) i)
          (layoutChildren (parseExplainJSON json c0).1.edges t)) / 2)
        (yt + nodeHeight + verticalGap)) ∧
    (∀ e ∈ (parseExplainJSON json c0).1.edges,
      e.source ∈ (parseExplainJSON json c0).1.planNodes.map (·.id) ∧
      e.target ∈ (parseExplainJSON json c0).1.planNodes.map (·.id)) := by
  have hinv := parseRoot_inv json
  have hplan : (parseExplainJSON json c0).1.planNodes =
      markCriticalPath (parseQueryBlock json.query_block none NodeType.select 0).1.nodes :=
    rfl
  obtain ⟨ids0, hmark⟩ := markCriticalPath_eq_map
    (parseQueryBlock json.query_block none NodeType.select 0).1.nodes
  have hidseq : (parseExplainJSON json c0).1.planNodes.map (·.id) =
      ((parseQueryBlock json.query_block none NodeType.select 0).1.nodes).map (·.id) := by
    rw [hplan, hmark, List.map_map]
    apply List.map_congr_left
    intro a _
    exact markFun_id ids0 a
  have hedges : (parseExplainJSON json c0).1.edges =
      (parseQueryBlock json.query_block none NodeType.select 0).1.edges := rfl
  have happ : (parseExplainJSON json c0).1.positions =
      applyLayout ((parseExplainJSON json c0).1.planNodes.map (·.id))
        (parseExplainJSON json c0).1.edges := rfl
  have hnd : ((parseExplainJSON json c0).1.planNodes.map (·.id)).Nodup := by
    rw [hidseq]
    exact hinv.ids_nodup
  have hsm : ∀ e ∈ (parseExplainJSON json c0).1.edges,
      e.source ∈ (parseExplainJSON json c0).1.planNodes.map (·.id) := by
    intro e he
    rw [hidseq]
    exact hinv.edge_src_mem e (hedges ▸ he)
  have htm : ∀ e ∈ (parseExplainJSON json c0).1.edges,
      e.target ∈ (parseExplainJSON json c0).1.planNodes.map (·.id) := by
    intro e he
    rw [hidseq]
    rcases hinv.edge_tgt_mem e (hedges ▸ he) with h | h
    · exact h
    · cases h
  have hlt : ∀ e ∈ (parseExplainJSON json c0).1.edges, e.target < e.source :=
    fun e he => hinv.edge_lt e (hedges ▸ he)
  have hsrc : ((parseExplainJSON json c0).1.edges.map (·.source)).Nodup := by
    rw [hedges]
    exact hinv.src_nodup
  obtain ⟨L1, L2⟩ := applyLayout_spec
    ((parseExplainJSON json c0).1.planNodes.map (·.id))
    (parseExplainJSON json c0).1.edges hnd hsm htm hlt hsrc
  refine ⟨?_, ?_, fun e he => ⟨hsm e he, htm e he⟩⟩
  · intro i hi
    rw [happ]
    exact L1 i hi
  · intro t ht xt yt hpos
    rw [happ] at hpos
    have := L2 t ht xt yt hpos
    rw [happ]
    exact this

/-! ## Claim C3 — vertical placement along edges -/

/-- C3 counterexample: in the ORDER-BY-over-a-table example the consumer
(the sort node, id 1) is placed at y = 0 and its producer (the table
node, id 2) at y = 200: the consumer's y-coordinate is strictly
SMALLER than its producer's, not strictly greater. -/
theorem consumer_not_below_producer :
    (parseExplainJSON exSortTable 0).1.edges = [⟨2, 1⟩] ∧
    posOf (parseExplainJSON exSortTable 0).1.positions 1 = some (0, 0) ∧
    posOf (parseExplainJSON exSortTable 0).1.positions 2 = some (0, 200) := by
  refine ⟨by decide, by decide, by decide⟩

/-- C3 (amended): the vertical order is the reverse of the claim's: for
every edge both endpoints are positioned and the PRODUCER (edge source)
sits exactly one row — node height 120 plus vertical gap 80 — below its
consumer (edge target), so the consumer's y-coordinate is strictly
smaller than each producer's. -/
theorem producer_below_consumer (json : MySQLExplainJSON) (c0 : ℕ)
    (e : EdgeRec) (he : e ∈ (parseExplainJSON json c0).1.edges) :
    ∃ xs xt yt,
      posOf (parseExplainJSON json c0).1.positions e.target = some (xt, yt) ∧
      posOf (parseExplainJSON json c0).1.positions e.source =
        some (xs, yt + nodeHeight + verticalGap) ∧
      yt < yt + nodeHeight + verticalGap := by
  obtain ⟨L1, L2, L3⟩ := parse_layout_spec json c0
  obtain ⟨hsmem, htmem⟩ := L3 e he
  obtain ⟨xt, yt, hxt⟩ := L1 e.target htmem
  have hcp := L2 e.target htmem xt yt hxt
  have hchild : e.source ∈ layoutChildren (parseExplainJSON json c0).1.edges e.target :=
    (mem_layoutChildren_iff _ _ _).mpr ⟨e, he, rfl, rfl⟩
  obtain ⟨xs, hxs, _⟩ := ChildrenPlaced.mem
    (fun c => calcWidth_ge (layoutChildren (parseExplainJSON json c0).1.edges)
      (((parseExplainJSON json c0).1.planNodes.map (·.id)).length + 1) c)
    hcp e.source hchild
  refine ⟨xs, xt, yt, hxt, hxs, ?_⟩
  have hpos : (0:ℚ) < nodeHeight + verticalGap := by
    norm_num [nodeHeight, verticalGap]
  linarith

/-- C3 witness: the producer-below-consumer theorem applied to the single
edge of the ORDER-BY example. -/
theorem producer_below_consumer_witness :
    (⟨2, 1⟩ : EdgeRec) ∈ (parseExplainJSON exSortTable 0).1.edges ∧
    ∃ xs xt yt,
      posOf (parseExplainJSON exSortTable 0).1.positions (1 : ℕ) = some (xt, yt) ∧
      posOf (parseExplainJSON exSortTable 0).1.positions (2 : ℕ) =
        some (xs, yt + nodeHeight + verticalGap) ∧
      yt < yt + nodeHeight + verticalGap :=
  ⟨by decide, producer_below_consumer exSortTable 0 ⟨2, 1⟩ (by decide)⟩

/-! ## Claim C9 — horizontal placement within a row -/

/-- C9 counterexample: two nodes on the same row overlap horizontally when
they hang under different roots.  In the materialized-subquery example the
first root's only child (node 2) spans x ∈ [0, 280] at y = 200, while the
second root's first child (node 4) starts at x = 60 on the same row —
inside node 2's span. -/
theorem crossRoot_same_row_overlap :
    posOf (parseExplainJSON exC9 0).1.positions 2 = some (0, 200) ∧
    posOf (parseExplainJSON exC9 0).1.positions 4 = some (60, 200) ∧
    (parseExplainJSON exC9 0).1.edges = [⟨2, 1⟩, ⟨4, 3⟩, ⟨5, 3⟩, ⟨6, 3⟩] ∧
    (60 : ℚ) < 0 + nodeWidth := by
  refine ⟨by decide, by decide, by decide, by norm_num [nodeWidth]⟩

/-- C9 (amended): non-overlap holds for SIBLINGS — the producers feeding
one consumer: in the order the layout lists them, each earlier sibling's
x-coordinate is at least a node width plus the horizontal gap (280 + 60)
short of each later sibling's, and they share a y-coordinate.  Disconnected
subtrees can still collide (see the counterexample). -/
theorem siblings_spaced (json : MySQLExplainJSON) (c0 : ℕ) (t : ℕ)
    (ht : t ∈ (parseExplainJSON json c0).1.planNodes.map (·.id)) :
    List.Pairwise (fun a b => ∀ pa pb : ℚ × ℚ,
      posOf (parseExplainJSON json c0).1.positions a = some pa →
      posOf (parseExplainJSON json c0).1.positions b = some pb →
      pa.1 + nodeWidth + horizontalGap ≤ pb.1 ∧ pa.2 = pb.2)
      (layoutChildren (parseExplainJSON json c0).1.edges t) := by
  obtain ⟨L1, L2, _⟩ := parse_layout_spec json c0
  obtain ⟨xt, yt, hxt⟩ := L1 t ht
  have hcp := L2 t ht xt yt hxt
  exact ChildrenPlaced.pairwise
    (fun c => calcWidth_ge (layoutChildren (parseExplainJSON json c0).1.edges)
      (((parseExplainJSON json c0).1.planNodes.map (·.id)).length + 1) c)
    hcp

/-- C9 witness: the sibling-spacing theorem applied to the three-table
join node of the materialized-subquery example. -/
theorem siblings_spaced_witness :
    (3 : ℕ) ∈ (parseExplainJSON exC9 0).1.planNodes.map (·.id) ∧
    List.Pairwise (fun a b => ∀ pa pb : ℚ × ℚ,
      posOf (parseExplainJSON exC9 0).1.positions a = some pa →
      posOf (parseExplainJSON exC9 0).1.positions b = some pb →
      pa.1 + nodeWidth + horizontalGap ≤ pb.1 ∧ pa.2 = pb.2)
      (layoutChildren (parseExplainJSON exC9 0).1.edges 3) :=
  ⟨by decide, siblings_spaced exC9 0 3 (by decide)⟩

/-! ## Claim C8 — referential integrity of the normalized graph -/

/-- C8: every node id referenced by an edge (as producer or consumer) or
by any node's `children` list exists in the node set returned by the same
parse. -/
theorem parse_referential_integrity (json : MySQLExplainJSON) (c0 : ℕ) :
    (∀ e ∈ (parseExplainJSON json c0).1.edges,
      (∃ n ∈ (parseExplainJSON json c0).1.planNodes, n.id = e.source) ∧
      (∃ n ∈ (parseExplainJSON json c0).1.planNodes, n.id = e.target)) ∧
    (∀ n ∈ (parseExplainJSON json c0).1.planNodes, ∀ i ∈ n.children,
      ∃ m ∈ (parseExplainJSON json c0).1.planNodes, m.id = i) := by
  obtain ⟨ids0, hmark⟩ := markCriticalPath_eq_map
    (parseQueryBlock json.query_block none NodeType.select 0).1.nodes
  have hinv := parseRoot_inv json
  have hplan : (parseExplainJSON json c0).1.planNodes =
      ((parseQueryBlock json.query_block none NodeType.select 0).1.nodes).map
        (markFun ids0) := hmark
  have hedges : (parseExplainJSON json c0).1.edges =
      (parseQueryBlock json.query_block none NodeType.select 0).1.edges := rfl
  constructor
  · intro e he
    rw [hedges] at he
    constructor
    · obtain ⟨n, hn, hid⟩ := mem_ids_iff.mp (hinv.edge_src_mem e he)
      refine ⟨markFun ids0 n, ?_, ?_⟩
      · rw [hplan]
        exact List.mem_map_of_mem _ hn
      · rw [markFun_id]
        exact hid
    · rcases hinv.edge_tgt_mem e he with ht | ht
      · obtain ⟨n, hn, hid⟩ := mem_ids_iff.mp ht
        refine ⟨markFun ids0 n, ?_, ?_⟩
        · rw [hplan]
          exact List.mem_map_of_mem _ hn
        · rw [markFun_id]
          exact hid
      · cases ht
  · intro n hn i hi
    rw [hplan] at hn
    obtain ⟨n0, hn0, rfl⟩ := List.mem_map.mp hn
    rw [markFun_children] at hi
    obtain ⟨m, hm, hid⟩ := mem_ids_iff.mp (hinv.child_mem n0 hn0 i hi)
    refine ⟨markFun ids0 m, ?_, ?_⟩
    · rw [hplan]
      exact List.mem_map_of_mem _ hm
    · rw [markFun_id]
      exact hid

/-! ## Claim C1 — children versus the edge list -/

/-- C1 counterexample: a GROUP BY over a table parses to an edge
(table 2 → group 1), yet the group node's `children` list is empty — so
`children` is not the set of edge sources targeting the node. -/
theorem group_children_inconsistent_with_edges :
    (parseExplainJSON exGroup 0).1.edges = [⟨2, 1⟩] ∧
    (parseExplainJSON exGroup 0).1.planNodes.map (fun n => (n.id, n.children)) =
      [(1, []), (2, [])] := by
  constructor
  · decide
  · decide

/-- C1 (amended): the `children` lists do not mirror the edge list — the
parser populates them only for sort-over-nested-loop, join, and
materialized-subquery table nodes (and then with every node of the
sub-parse); in particular every group, distinct, union and buffer node has
an empty `children` list even when edges target it. -/
theorem stage_nodes_empty_children (json : MySQLExplainJSON) (c0 : ℕ)
    (n : PlanNode) (hn : n ∈ (parseExplainJSON json c0).1.planNodes)
    (ht : n.type = NodeType.group ∨ n.type = NodeType.distinct ∨
      n.type = NodeType.union ∨ n.type = NodeType.buffer) :
    n.children = [] := by
  obtain ⟨ids0, hmark⟩ := markCriticalPath_eq_map
    (parseQueryBlock json.query_block none NodeType.select 0).1.nodes
  have hinv := parseRoot_inv json
  have hplan : (parseExplainJSON json c0).1.planNodes =
      ((parseQueryBlock json.query_block none NodeType.select 0).1.nodes).map
        (markFun ids0) := hmark
  rw [hplan] at hn
  obtain ⟨n0, hn0, rfl⟩ := List.mem_map.mp hn
  rw [markFun_children]
  apply hinv.stage_children_empty n0 hn0
  rw [markFun_type] at ht
  exact ht

/-- C1 witness: the empty-children theorem applied to the group node the
GROUP BY example emits. -/
theorem stage_nodes_empty_children_witness :
    ({ id := 1, type := NodeType.group, label := "GROUP BY", cost := .num 0, rows := 0,
       extra := [], children := [], isCriticalPath := true } : PlanNode) ∈
      (parseExplainJSON exGroup 0).1.planNodes ∧
    ({ id := 1, type := NodeType.group, label := "GROUP BY", cost := .num 0, rows := 0,
       extra := [], children := [], isCriticalPath := true } : PlanNode).children = [] :=
  ⟨by decide, stage_nodes_empty_children exGroup 0 _ (by decide) (Or.inl rfl)⟩

/-- C4 witness: the amended join-structure theorem applied to the
two-table example list. -/
theorem parseNestedLoop_join_structure_witness :
    (2 ≤ exC4Items.length ∧
      ∀ item ∈ exC4Items,
        (NestedLoopItem.table item).materialized_from_subquery.isNone = true) ∧
    ((∀ single pid c0, parseNestedLoop [single] pid c0 =
        parseTable (NestedLoopItem.table single) pid c0) ∧
      ∃ jn ns,
        (parseNestedLoop exC4Items none 0).1.nodes = jn :: ns ∧
        jn.type = NodeType.join ∧ jn.id = 0 + 1 ∧
        jn.cost = specCostSum exC4Items ∧
        jn.rows = specAmendedJoinRows exC4Items ∧
        jn.children = ns.map (·.id) ∧
        ns.map (·.type) = exC4Items.map (fun _ => NodeType.table) ∧
        ((jn :: ns).filter (fun n => n.type = NodeType.join)).length = 1 ∧
        (parseNestedLoop exC4Items none 0).1.edges =
          parentEdge (0 + 1) none ++ ns.map (fun n => EdgeRec.mk n.id (0 + 1))) :=
  ⟨⟨by decide, by decide⟩,
    parseNestedLoop_join_structure exC4Items none 0 (by decide) (by decide)⟩

end PlanViz
